import Mathlib

/-!
# teowebrtc_signal_client: a shallow embedding of the WebRTC signal client

The Go package `teowebrtc_signal_client` (file `teowebrtc_signal_client.go`) is a
client of a signalling relay: `Connect` dials a websocket and writes a login
frame, `WriteOffer`, `WriteAnswer` and `WriteCandidate` write signal frames,
`WaitSignal` reads and decodes one frame, `Close` closes the connection.

The development has five parts.

* Go values and `encoding/json`: `json.Marshal` of the two structs of the
  package and `json.Unmarshal` into `Signal`, as functions on text.
* The websocket connection and the cancellation context as explicit state.
* The functions of the package, one definition per Go function.
* Lemmas: the decoder reads back what the encoder writes.
* The properties of the package.

Conventions of the embedding.

* A Go `string` that a caller passes to the package is a `GoString`, which can
  hold bytes that are not valid UTF-8.  The strings inside a payload, and the
  bytes of a frame, are modelled by Unicode text (`String`, `List Char`): they
  are valid UTF-8.
* Calls of package `log` only print and are left out.
* A Go function can return, panic, or block for ever; see `Res`.
-/

set_option linter.dupNamespace false

namespace Teowebrtc

/-! ## Go values -/

/-- The finite values of Go type `float64`: sign, significand and binary
exponent, denoting `(-1)^neg * mant * 2^exp`.  In the canonical form produced by
`F64.ofDecimal` either `2^52 ≤ mant < 2^53` and `-1074 ≤ exp ≤ 971`, or
`mant < 2^52` and `exp = -1074` (subnormal numbers and the two zeros). -/
structure F64 where
  neg : Bool
  mant : Nat
  exp : Int
  deriving DecidableEq, Repr

/-- What a Go string is made of, in the order of its bytes: a character for
every well-formed UTF-8 encoding, and the byte itself, a number below 256, for
every byte that is part of no such encoding.  A range loop over the string
yields the characters, and U+FFFD for each of these bytes. -/
inductive GoRune where
  | char (c : Char)
  | byte (b : Nat)
  deriving DecidableEq, Repr

/-- A Go `string`: any sequence of bytes, given by the characters and the
invalid bytes it decodes to. -/
structure GoString where
  runes : List GoRune
  deriving DecidableEq, Repr

/-- The Go string with the bytes of a text, which is valid UTF-8. -/
def GoString.ofString (s : String) : GoString :=
  ⟨s.data.map GoRune.char⟩

/-- The Go string with the bytes of a list of characters. -/
def GoString.ofChars (cs : List Char) : GoString :=
  ⟨cs.map GoRune.char⟩

instance : Coe String GoString := ⟨GoString.ofString⟩

/-- What `utf8.DecodeRuneInString` reads at a place of a Go string: the
character encoded there, and `utf8.RuneError`, which is U+FFFD, at a byte that
is not valid UTF-8. -/
def GoRune.toChar : GoRune → Char
  | .char c => c
  | .byte _ => Char.ofNat 65533

/-- The characters of `[]rune(s)`: those of the string, with U+FFFD in place
of every byte that is not valid UTF-8. -/
def GoString.toRunes (s : GoString) : List Char :=
  s.runes.map GoRune.toChar

/-- The Go values that the embedding lets a caller pass as `interface{}`
payload, and that `json.Unmarshal` stores in an `interface{}`:
the nil interface, `bool`, `int`, `float64`, `string`, a non-nil
`[]interface{}`, a non-nil `map[string]interface{}` (its entries listed in
increasing key order, the order in which `encoding/json` writes them), and a
channel, which stands for the values that `json.Marshal` rejects.  The strings
and keys inside a payload are valid UTF-8. -/
inductive GoVal where
  | nil
  | bool (b : Bool)
  | int (n : Int)
  | float64 (f : F64)
  | string (s : String)
  | slice (xs : List GoVal)
  | map (kvs : List (String × GoVal))
  | chan
  deriving Repr

mutual
/-- Equality of Go values is decidable. -/
def GoVal.decEq : (a b : GoVal) → Decidable (a = b)
  | .nil, .nil => isTrue rfl
  | .chan, .chan => isTrue rfl
  | .bool a, .bool b =>
    if h : a = b then isTrue (by rw [h]) else isFalse (by intro e; cases e; exact h rfl)
  | .int a, .int b =>
    if h : a = b then isTrue (by rw [h]) else isFalse (by intro e; cases e; exact h rfl)
  | .float64 a, .float64 b =>
    if h : a = b then isTrue (by rw [h]) else isFalse (by intro e; cases e; exact h rfl)
  | .string a, .string b =>
    if h : a = b then isTrue (by rw [h]) else isFalse (by intro e; cases e; exact h rfl)
  | .slice a, .slice b =>
    match GoVal.decEqList a b with
    | isTrue h => isTrue (by rw [h])
    | isFalse h => isFalse (by intro e; cases e; exact h rfl)
  | .map a, .map b =>
    match GoVal.decEqEntries a b with
    | isTrue h => isTrue (by rw [h])
    | isFalse h => isFalse (by intro e; cases e; exact h rfl)
  | .nil, .bool _ | .nil, .int _ | .nil, .float64 _ | .nil, .string _ | .nil, .slice _
  | .nil, .map _ | .nil, .chan
  | .bool _, .nil | .bool _, .int _ | .bool _, .float64 _ | .bool _, .string _ | .bool _, .slice _
  | .bool _, .map _ | .bool _, .chan
  | .int _, .nil | .int _, .bool _ | .int _, .float64 _ | .int _, .string _ | .int _, .slice _
  | .int _, .map _ | .int _, .chan
  | .float64 _, .nil | .float64 _, .bool _ | .float64 _, .int _ | .float64 _, .string _
  | .float64 _, .slice _ | .float64 _, .map _ | .float64 _, .chan
  | .string _, .nil | .string _, .bool _ | .string _, .int _ | .string _, .float64 _
  | .string _, .slice _ | .string _, .map _ | .string _, .chan
  | .slice _, .nil | .slice _, .bool _ | .slice _, .int _ | .slice _, .float64 _
  | .slice _, .string _ | .slice _, .map _ | .slice _, .chan
  | .map _, .nil | .map _, .bool _ | .map _, .int _ | .map _, .float64 _ | .map _, .string _
  | .map _, .slice _ | .map _, .chan
  | .chan, .nil | .chan, .bool _ | .chan, .int _ | .chan, .float64 _ | .chan, .string _
  | .chan, .slice _ | .chan, .map _ => isFalse (by intro e; cases e)
/-- Equality of lists of Go values is decidable. -/
def GoVal.decEqList : (a b : List GoVal) → Decidable (a = b)
  | [], [] => isTrue rfl
  | [], _ :: _ => isFalse (by intro e; cases e)
  | _ :: _, [] => isFalse (by intro e; cases e)
  | x :: xs, y :: ys =>
    match GoVal.decEq x y, GoVal.decEqList xs ys with
    | isTrue h1, isTrue h2 => isTrue (by rw [h1, h2])
    | isFalse h, _ => isFalse (by intro e; cases e; exact h rfl)
    | _, isFalse h => isFalse (by intro e; cases e; exact h rfl)
/-- Equality of lists of map entries is decidable. -/
def GoVal.decEqEntries : (a b : List (String × GoVal)) → Decidable (a = b)
  | [], [] => isTrue rfl
  | [], _ :: _ => isFalse (by intro e; cases e)
  | _ :: _, [] => isFalse (by intro e; cases e)
  | (k, x) :: xs, (k1, y) :: ys =>
    if hk : k = k1 then
      match GoVal.decEq x y, GoVal.decEqEntries xs ys with
      | isTrue h1, isTrue h2 => isTrue (by rw [hk, h1, h2])
      | isFalse h, _ => isFalse (by intro e; cases e; exact h rfl)
      | _, isFalse h => isFalse (by intro e; cases e; exact h rfl)
    else isFalse (by intro e; cases e; exact hk rfl)
end

instance : DecidableEq GoVal := GoVal.decEq

/-- The struct `Login` (source lines 28-31). -/
structure Login where
  Signal : GoString
  Login : GoString
  deriving DecidableEq, Repr

/-- The struct `Signal` (source lines 33-37). -/
structure Signal where
  Signal : GoString
  Peer : GoString
  Data : GoVal
  deriving DecidableEq, Repr

/-- The errors of the embedding: those of the websocket library (`dial`,
`write`, `read`, use of a closed connection, cancelled context) and those of
`encoding/json` (`SyntaxError`, `UnmarshalTypeError`, `UnsupportedTypeError`). -/
inductive Error where
  | dial
  | write
  | read
  | closed
  | canceled
  | invalidJSON
  | unmarshalType
  | unsupportedType
  deriving DecidableEq, Repr

/-- A websocket message: the bytes of a text frame. -/
abbrev Frame := List Char

/-! ## json.Marshal

The encoder of `encoding/json`, with `escapeHTML` on as `json.Marshal` has it. -/

/-- The hexadecimal digit of a number below 16, in lower case. -/
def hexDigit (n : Nat) : Char :=
  if n < 10 then Char.ofNat (48 + n) else Char.ofNat (87 + n)

/-- The four hexadecimal digits of a number below 65536. -/
def hex4 (n : Nat) : List Char :=
  [hexDigit (n / 4096 % 16), hexDigit (n / 256 % 16), hexDigit (n / 16 % 16), hexDigit (n % 16)]

/-- The text that `appendString` writes for one character of a string: the
quote and the backslash are escaped, line feed, carriage return and tab get
their short escape, the other control characters and, for HTML safety, the
characters less-than, greater-than and ampersand and the separators U+2028 and
U+2029 are written as a four-digit unicode escape; every other character is
copied.  (From Go 1.22 on backspace and form feed get a short escape as well;
the decoder reads both forms as the same character.) -/
def escapeChar (c : Char) : List Char :=
  if c = '"' then ['\\', '"']
  else if c = '\\' then ['\\', '\\']
  else if c = '\n' then ['\\', 'n']
  else if c = '\r' then ['\\', 'r']
  else if c = '\t' then ['\\', 't']
  else if c.toNat < 32 ∨ c = '<' ∨ c = '>' ∨ c = '&' ∨ c.toNat = 8232 ∨ c.toNat = 8233 then
    '\\' :: 'u' :: hex4 c.toNat
  else [c]

/-- The body of a JSON string literal, without the quotes. -/
def escapeChars : List Char → List Char
  | [] => []
  | c :: cs => escapeChar c ++ escapeChars cs

/-- The body of the JSON string literal of a Go string: every character as
`escapeChar` writes it, and in place of every byte that is not valid UTF-8 the
escape of the replacement character U+FFFD, to which `encoding/json` coerces
such bytes. -/
def escapeRunes : List GoRune → List Char
  | [] => []
  | .char c :: rs => escapeChar c ++ escapeRunes rs
  | .byte _ :: rs => '\\' :: 'u' :: 'f' :: 'f' :: 'f' :: 'd' :: escapeRunes rs

/-- A Go string as a JSON string literal. -/
def encodeString (s : GoString) : List Char :=
  '"' :: (escapeRunes s.runes ++ ['"'])

/-- The decimal digits of `n` put before `acc`; the first argument is fuel. -/
def digitsAux : Nat → Nat → List Char → List Char
  | 0, _, acc => acc
  | fuel + 1, n, acc =>
    if n < 10 then Char.ofNat (48 + n) :: acc
    else digitsAux fuel (n / 10) (Char.ofNat (48 + n % 10) :: acc)

/-- A natural number in decimal, without leading zeros. -/
def decimal (n : Nat) : List Char :=
  digitsAux (n + 1) n []

/-- A Go `int` in decimal, as `strconv.AppendInt` writes it. -/
def encodeInt (n : Int) : List Char :=
  if n < 0 then '-' :: decimal n.natAbs else decimal n.natAbs

/-- The position of the highest set bit: `log2Fuel n n` is the floor of the
binary logarithm of a positive `n`. -/
def log2Fuel : Nat → Nat → Nat
  | 0, _ => 0
  | fuel + 1, n => if n < 2 then 0 else log2Fuel fuel (n / 2) + 1

/-- The float64 nearest to `(-1)^neg * n * 10^e`, ties to even, as
`strconv.ParseFloat(s, 64)` computes it; `none` is the range error of a
decimal that rounds beyond the largest float64. -/
def F64.ofDecimal (neg : Bool) (n : Nat) (e : Int) : Option F64 :=
  if n = 0 then some ⟨neg, 0, -1074⟩
  else
    let num := if 0 ≤ e then n * 10 ^ e.toNat else n
    let den := if 0 ≤ e then 1 else 10 ^ (-e).toNat
    let t : Int := (log2Fuel num num : Int) - (log2Fuel den den : Int)
    let b : Int :=
      if (if 0 ≤ t then den * 2 ^ t.toNat ≤ num else den ≤ num * 2 ^ (-t).toNat) then t else t - 1
    let p : Int := max (b - 52) (-1074)
    let n2 := if 0 ≤ p then num else num * 2 ^ (-p).toNat
    let d2 := if 0 ≤ p then den * 2 ^ p.toNat else den
    let q := n2 / d2
    let r := n2 % d2
    let m := if 2 * r < d2 then q else if d2 < 2 * r then q + 1 else if q % 2 = 0 then q else q + 1
    let m1 := if m = 2 ^ 53 then 2 ^ 52 else m
    let p1 := if m = 2 ^ 53 then p + 1 else p
    if 971 < p1 then none else some ⟨neg, m1, p1⟩

/-- The least `j` from the given one with `den ≤ num * 10^j`. -/
def leadingZeros : Nat → Nat → Nat → Nat → Nat
  | 0, _, _, j => j
  | fuel + 1, num, den, j => if den ≤ num * 10 ^ j then j else leadingZeros fuel num den (j + 1)

/-- The number `n` without its trailing decimal zeros. -/
def stripZeros : Nat → Nat → Nat
  | 0, n => n
  | fuel + 1, n => if n ≠ 0 ∧ n % 10 = 0 then stripZeros fuel (n / 10) else n

/-- The shortest decimal that reads back as `f`: for the least number of
digits `nd`, from the given one on, for which a decimal of `nd` digits rounds
to `f`, the one nearest to `f`.  The result `(d, nd)` stands for the decimal
`d * 10^(k - nd)`, where `10^(k-1) ≤ num / den < 10^k` is the value of `f`. -/
def shortestFrom (f : F64) (num den : Nat) (k : Int) : Nat → Nat → Nat × Nat
  | 0, nd => (num * 10 ^ (nd - k).toNat / den, nd)
  | fuel + 1, nd =>
    let sn := if k ≤ nd then num * 10 ^ (nd - k).toNat else num
    let sd := if k ≤ nd then den else den * 10 ^ (k - nd).toNat
    let lo := sn / sd
    let hi := lo + 1
    let okLo := F64.ofDecimal f.neg lo (k - nd) = some f
    let okHi := F64.ofDecimal f.neg hi (k - nd) = some f
    let hiNearer := sd < 2 * (sn % sd) ∨ (sd = 2 * (sn % sd) ∧ lo % 2 = 1)
    if okLo ∧ okHi then (if hiNearer then (hi, nd) else (lo, nd))
    else if okLo then (lo, nd)
    else if okHi then (hi, nd)
    else shortestFrom f num den k fuel (nd + 1)

/-- The text of a float64 in a JSON document, as the float encoder of
`encoding/json` writes it: the shortest decimal that reads back as the same
value, in exponent form below `1e-6` (the float64 `4722366482869645 * 2^-72`)
and from `1e21` on, with a one-digit exponent written without a leading zero. -/
def encodeFloat (f : F64) : List Char :=
  let sign := if f.neg then ['-'] else []
  if f.mant = 0 then sign ++ ['0']
  else
    let num := if 0 ≤ f.exp then f.mant * 2 ^ f.exp.toNat else f.mant
    let den := if 0 ≤ f.exp then 1 else 2 ^ (-f.exp).toNat
    let k : Int :=
      if den ≤ num then ((decimal (num / den)).length : Int)
      else 1 - (leadingZeros 400 num den 0 : Int)
    let (d0, nd) := shortestFrom f num den k 17 1
    let ds := decimal (stripZeros 400 d0)
    let k1 : Int := k + ((decimal d0).length : Int) - nd
    if num * 2 ^ 72 < 4722366482869645 * den ∨ 21 < k then
      let e := k1 - 1
      sign ++ (ds.take 1 ++ (if 1 < ds.length then '.' :: ds.drop 1 else []))
        ++ ('e' :: (if e < 0 then '-' else '+') :: decimal e.natAbs)
    else if 0 < k1 then
      sign ++ (ds.take k1.toNat ++ List.replicate (k1.toNat - ds.length) '0')
        ++ (if k1.toNat < ds.length then '.' :: ds.drop k1.toNat else [])
    else
      sign ++ ('0' :: '.' :: (List.replicate (-k1).toNat '0' ++ ds))

/-- The encoder of `encoding/json` on a value held in an `interface{}`:
`encodeValue v` is the JSON text of `v`, or the `UnsupportedTypeError` that
`json.Marshal` returns for a channel anywhere inside `v`.  The elements of a
slice and the entries of a map are separated by commas, without any space. -/
def encodeValue : GoVal → Except Error (List Char)
  | .nil => .ok ['n', 'u', 'l', 'l']
  | .bool true => .ok ['t', 'r', 'u', 'e']
  | .bool false => .ok ['f', 'a', 'l', 's', 'e']
  | .int n => .ok (encodeInt n)
  | .float64 f => .ok (encodeFloat f)
  | .string s => .ok (encodeString s)
  | .slice [] => .ok ['[', ']']
  | .slice (x :: xs) =>
    match encodeValue x, encodeElems xs with
    | .ok b, .ok bs => .ok ('[' :: (b ++ bs))
    | .error e, _ => .error e
    | _, .error e => .error e
  | .map [] => .ok ['{', '}']
  | .map ((k, x) :: kvs) =>
    match encodeValue x, encodeEntries kvs with
    | .ok b, .ok bs => .ok ('{' :: (encodeString k ++ ':' :: (b ++ bs)))
    | .error e, _ => .error e
    | _, .error e => .error e
  | .chan => .error .unsupportedType
where
  /-- The elements after the first, each after a comma, and the closing bracket. -/
  encodeElems : List GoVal → Except Error (List Char)
    | [] => .ok [']']
    | x :: xs =>
      match encodeValue x, encodeElems xs with
      | .ok b, .ok bs => .ok (',' :: (b ++ bs))
      | .error e, _ => .error e
      | _, .error e => .error e
  /-- The entries after the first, each after a comma, and the closing brace. -/
  encodeEntries : List (String × GoVal) → Except Error (List Char)
    | [] => .ok ['}']
    | (k, x) :: kvs =>
      match encodeValue x, encodeEntries kvs with
      | .ok b, .ok bs => .ok (',' :: (encodeString k ++ ':' :: (b ++ bs)))
      | .error e, _ => .error e
      | _, .error e => .error e

/-- The call `json.Marshal(login)` for a `Login`: the object with the members
`signal` and `login` in the order of the struct fields.  Two strings can always
be encoded, so the error is always nil. -/
def jsonMarshalLogin (l : Login) : Frame × Option Error :=
  ("\x7b\"signal\":".data ++ encodeString l.Signal ++ ",\"login\":".data
    ++ encodeString l.Login ++ ['}'], none)

/-- The call `json.Marshal(sig)` for a `Signal`: the object with the members
`signal`, `peer` and `data` in the order of the struct fields, or no bytes and
the error of the payload when the payload cannot be encoded. -/
def jsonMarshalSignal (sig : Signal) : Frame × Option Error :=
  match encodeValue sig.Data with
  | .ok b =>
    ("\x7b\"signal\":".data ++ encodeString sig.Signal ++ ",\"peer\":".data
      ++ encodeString sig.Peer ++ ",\"data\":".data ++ b ++ ['}'], none)
  | .error e => ([], some e)

/-! ## json.Unmarshal

`json.Unmarshal` first checks that its input is one well-formed JSON value
(`checkValid`) and only then stores what it read.  The embedding parses the
text into a document tree, which fails exactly where `checkValid` does, and
then stores the tree into the `Signal`. -/

/-- A JSON document.  A number literal is kept as its sign, the digits of its
integer and fraction part as one number, and its decimal exponent: the literal
`-12.50e3` is `num true 1250 1`. -/
inductive JVal where
  | null
  | bool (b : Bool)
  | num (neg : Bool) (digits : Nat) (exp : Int)
  | str (s : List Char)
  | arr (xs : List JVal)
  | obj (kvs : List (List Char × JVal))
  deriving Repr

mutual
/-- Equality of documents is decidable. -/
def JVal.decEq : (a b : JVal) → Decidable (a = b)
  | .null, .null => isTrue rfl
  | .bool a, .bool b => if h : a = b then isTrue (by rw [h]) else isFalse (by intro e; cases e; exact h rfl)
  | .num a b c, .num a1 b1 c1 =>
    if h : a = a1 ∧ b = b1 ∧ c = c1 then isTrue (by rcases h with ⟨rfl, rfl, rfl⟩; rfl)
    else isFalse (by intro e; cases e; exact h ⟨rfl, rfl, rfl⟩)
  | .str a, .str b => if h : a = b then isTrue (by rw [h]) else isFalse (by intro e; cases e; exact h rfl)
  | .arr a, .arr b =>
    match JVal.decEqList a b with
    | isTrue h => isTrue (by rw [h])
    | isFalse h => isFalse (by intro e; cases e; exact h rfl)
  | .obj a, .obj b =>
    match JVal.decEqKVs a b with
    | isTrue h => isTrue (by rw [h])
    | isFalse h => isFalse (by intro e; cases e; exact h rfl)
  | .null, .bool _ | .null, .num .. | .null, .str _ | .null, .arr _ | .null, .obj _
  | .bool _, .null | .bool _, .num .. | .bool _, .str _ | .bool _, .arr _ | .bool _, .obj _
  | .num .., .null | .num .., .bool _ | .num .., .str _ | .num .., .arr _ | .num .., .obj _
  | .str _, .null | .str _, .bool _ | .str _, .num .. | .str _, .arr _ | .str _, .obj _
  | .arr _, .null | .arr _, .bool _ | .arr _, .num .. | .arr _, .str _ | .arr _, .obj _
  | .obj _, .null | .obj _, .bool _ | .obj _, .num .. | .obj _, .str _ | .obj _, .arr _ => isFalse (by intro e; cases e)
/-- Equality of lists of documents is decidable. -/
def JVal.decEqList : (a b : List JVal) → Decidable (a = b)
  | [], [] => isTrue rfl
  | [], _ :: _ => isFalse (by intro e; cases e)
  | _ :: _, [] => isFalse (by intro e; cases e)
  | x :: xs, y :: ys =>
    match JVal.decEq x y, JVal.decEqList xs ys with
    | isTrue h1, isTrue h2 => isTrue (by rw [h1, h2])
    | isFalse h, _ => isFalse (by intro e; cases e; exact h rfl)
    | _, isFalse h => isFalse (by intro e; cases e; exact h rfl)
/-- Equality of lists of members is decidable. -/
def JVal.decEqKVs : (a b : List (List Char × JVal)) → Decidable (a = b)
  | [], [] => isTrue rfl
  | [], _ :: _ => isFalse (by intro e; cases e)
  | _ :: _, [] => isFalse (by intro e; cases e)
  | (k, x) :: xs, (k1, y) :: ys =>
    if hk : k = k1 then
      match JVal.decEq x y, JVal.decEqKVs xs ys with
      | isTrue h1, isTrue h2 => isTrue (by rw [hk, h1, h2])
      | isFalse h, _ => isFalse (by intro e; cases e; exact h rfl)
      | _, isFalse h => isFalse (by intro e; cases e; exact h rfl)
    else isFalse (by intro e; cases e; exact hk rfl)
end

instance : DecidableEq JVal := JVal.decEq


/-- The nesting depth beyond which the scanner of `encoding/json` reports
`exceeded max depth`. -/
def maxNestingDepth : Nat := 10000

/-- The white space of JSON: space, tab, carriage return, line feed. -/
def isSpace (c : Char) : Bool :=
  c = ' ' || c = '\t' || c = '\r' || c = '\n'

/-- The text after its leading white space. -/
def skipSpace : List Char → List Char
  | [] => []
  | c :: cs => if isSpace c then skipSpace cs else c :: cs

/-- The value of a hexadecimal digit, in either case. -/
def hexVal (c : Char) : Option Nat :=
  if 48 ≤ c.toNat ∧ c.toNat ≤ 57 then some (c.toNat - 48)
  else if 97 ≤ c.toNat ∧ c.toNat ≤ 102 then some (c.toNat - 87)
  else if 65 ≤ c.toNat ∧ c.toNat ≤ 70 then some (c.toNat - 55)
  else none

/-- The number written by four hexadecimal digits (`getu4`). -/
def hex4Val (a b c d : Char) : Option Nat :=
  match hexVal a, hexVal b, hexVal c, hexVal d with
  | some x, some y, some z, some w => some (x * 4096 + y * 256 + z * 16 + w)
  | _, _, _, _ => none

/-- The character of a unicode escape that is followed by the text `r`
(`unquote`): a high surrogate directly followed by the escape of a low
surrogate gives the character of the pair and consumes both escapes; any other
surrogate gives the replacement character U+FFFD. -/
def unescapeU (v : Nat) (r : List Char) : Char × List Char :=
  if 55296 ≤ v ∧ v < 57344 then
    match r with
    | b :: u :: a2 :: b2 :: c2 :: d2 :: r2 =>
      if b = '\\' ∧ u = 'u' then
        match hex4Val a2 b2 c2 d2 with
        | some v2 =>
          if v < 56320 ∧ 56320 ≤ v2 ∧ v2 < 57344 then
            (Char.ofNat ((v - 55296) * 1024 + (v2 - 56320) + 65536), r2)
          else (Char.ofNat 65533, r)
        | none => (Char.ofNat 65533, r)
      else (Char.ofNat 65533, r)
    | _ => (Char.ofNat 65533, r)
  else (Char.ofNat v, r)

/-- The characters of a string literal from behind its opening quote up to its
closing quote, and the text after the literal.  Control characters and unknown
escapes are errors.  The first argument bounds the number of characters and
escapes read. -/
def parseString : Nat → List Char → Option (List Char × List Char)
  | 0, _ => none
  | _, [] => none
  | fuel + 1, c :: cs =>
    if c = '"' then some ([], cs)
    else if c = '\\' then
      match cs with
      | [] => none
      | e :: r =>
        if e = 'u' then
          match r with
          | a :: b :: c1 :: d :: r1 =>
            match hex4Val a b c1 d with
            | some v =>
              match parseString fuel (unescapeU v r1).2 with
              | some (s, rest) => some ((unescapeU v r1).1 :: s, rest)
              | none => none
            | none => none
          | _ => none
        else
          let plain : Option Char :=
            if e = '"' then some '"' else if e = '\\' then some '\\' else if e = '/' then some '/'
            else if e = 'b' then some (Char.ofNat 8) else if e = 'f' then some (Char.ofNat 12)
            else if e = 'n' then some '\n' else if e = 'r' then some '\r'
            else if e = 't' then some '\t' else none
          match plain with
          | some x =>
            match parseString fuel r with
            | some (s, rest) => some (x :: s, rest)
            | none => none
          | none => none
    else if c.toNat < 32 then none
    else
      match parseString fuel cs with
      | some (s, rest) => some (c :: s, rest)
      | none => none

/-- The decimal digits at the head of the text, appended to the number `acc`;
the count of digits read is added to `cnt`. -/
def takeDigits : List Char → Nat → Nat → Nat × Nat × List Char
  | [], acc, cnt => (acc, cnt, [])
  | c :: cs, acc, cnt =>
    if c.isDigit then takeDigits cs (acc * 10 + (c.toNat - 48)) (cnt + 1) else (acc, cnt, c :: cs)

/-- The exponent part of a number literal whose digits `n`, of which `cnt`
stand behind the point, have been read. -/
def parseExp (neg : Bool) (n cnt : Nat) (cs : List Char) : Option (JVal × List Char) :=
  match cs with
  | e :: r =>
    if e = 'e' ∨ e = 'E' then
      let eneg := match r with
        | s :: _ => decide (s = '-')
        | [] => false
      let r1 := match r with
        | s :: t => if s = '-' ∨ s = '+' then t else r
        | [] => r
      match r1 with
      | d :: _ =>
        if d.isDigit then
          let (x, _, rest) := takeDigits r1 0 0
          some (.num neg n ((if eneg then -(x : Int) else (x : Int)) - cnt), rest)
        else none
      | [] => none
    else some (.num neg n (-(cnt : Int)), cs)
  | [] => some (.num neg n (-(cnt : Int)), cs)

/-- The fraction and exponent part of a number literal whose integer part `n`
has been read. -/
def parseFrac (neg : Bool) (n : Nat) (cs : List Char) : Option (JVal × List Char) :=
  match cs with
  | p :: r =>
    if p = '.' then
      match r with
      | d :: _ =>
        if d.isDigit then
          let (n1, cnt, rest) := takeDigits r n 0
          parseExp neg n1 cnt rest
        else none
      | [] => none
    else parseExp neg n 0 cs
  | [] => parseExp neg n 0 cs

/-- A number literal: an optional minus sign, then `0` or a digit from 1 to 9
followed by digits, then an optional fraction and an optional exponent. -/
def parseNumber (cs : List Char) : Option (JVal × List Char) :=
  let neg := match cs with
    | s :: _ => decide (s = '-')
    | [] => false
  let cs1 := match cs with
    | s :: t => if s = '-' then t else cs
    | [] => cs
  match cs1 with
  | d :: r =>
    if d = '0' then parseFrac neg 0 r
    else if d.isDigit then
      let (n, _, rest) := takeDigits cs1 0 0
      parseFrac neg n rest
    else none
  | [] => none

mutual
/-- One JSON value at the head of the text (which does not start with white
space), and the text after it.  The first argument is fuel, the second the
number of arrays and objects the value lies in. -/
def parseValue : Nat → Nat → List Char → Option (JVal × List Char)
  | 0, _, _ => none
  | _, _, [] => none
  | fuel + 1, depth, c :: cs =>
    if c = '"' then
      match parseString (cs.length + 1) cs with
      | some (s, rest) => some (.str s, rest)
      | none => none
    else if c = '[' then
      if depth < maxNestingDepth then
        match skipSpace cs with
        | [] => none
        | c1 :: r =>
          if c1 = ']' then some (.arr [], r)
          else
            match parseElements fuel (depth + 1) (c1 :: r) with
            | some (xs, rest) => some (.arr xs, rest)
            | none => none
      else none
    else if c = '\x7b' then
      if depth < maxNestingDepth then
        match skipSpace cs with
        | [] => none
        | c1 :: r =>
          if c1 = '\x7d' then some (.obj [], r)
          else
            match parseMembers fuel (depth + 1) (c1 :: r) with
            | some (kvs, rest) => some (.obj kvs, rest)
            | none => none
      else none
    else if c = 't' then
      match cs with
      | 'r' :: 'u' :: 'e' :: rest => some (.bool true, rest)
      | _ => none
    else if c = 'f' then
      match cs with
      | 'a' :: 'l' :: 's' :: 'e' :: rest => some (.bool false, rest)
      | _ => none
    else if c = 'n' then
      match cs with
      | 'u' :: 'l' :: 'l' :: rest => some (.null, rest)
      | _ => none
    else parseNumber (c :: cs)
/-- The elements of an array from its first value up to the closing bracket. -/
def parseElements : Nat → Nat → List Char → Option (List JVal × List Char)
  | 0, _, _ => none
  | fuel + 1, depth, cs =>
    match parseValue fuel depth cs with
    | none => none
    | some (v, r) =>
      match skipSpace r with
      | [] => none
      | c :: r1 =>
        if c = ',' then
          match parseElements fuel depth (skipSpace r1) with
          | some (vs, rest) => some (v :: vs, rest)
          | none => none
        else if c = ']' then some ([v], r1)
        else none
/-- The members of an object from its first key up to the closing brace. -/
def parseMembers : Nat → Nat → List Char → Option (List (List Char × JVal) × List Char)
  | 0, _, _ => none
  | _, _, [] => none
  | fuel + 1, depth, q :: cs =>
    if q = '"' then
      match parseString (cs.length + 1) cs with
      | none => none
      | some (k, r) =>
        match skipSpace r with
        | [] => none
        | c :: r1 =>
          if c = ':' then
            match parseValue fuel depth (skipSpace r1) with
            | none => none
            | some (v, r2) =>
              match skipSpace r2 with
              | [] => none
              | c2 :: r3 =>
                if c2 = ',' then
                  match parseMembers fuel depth (skipSpace r3) with
                  | some (kvs, rest) => some ((k, v) :: kvs, rest)
                  | none => none
                else if c2 = '\x7d' then some ([(k, v)], r3)
                else none
          else none
    else none
end

/-- The document that a text consists of: one value with white space around it
and nothing else.  `none` is the `SyntaxError` of `checkValid`.  The fuel is
enough for every text: a value is parsed with more than twice as much fuel as
there are characters left, and every call of the parser on the elements of an
array or object comes after a character has been read. -/
def parseJSON (data : List Char) : Option JVal :=
  match parseValue (2 * data.length + 2) 0 (skipSpace data) with
  | some (v, r) => if skipSpace r = [] then some v else none
  | none => none

/-- The order of Go strings, which is the order in which `encoding/json` sorts
the keys of a map: character by character, a proper initial part first. -/
def keyLt : List Char → List Char → Bool
  | [], [] => false
  | [], _ :: _ => true
  | _ :: _, [] => false
  | a :: as, b :: bs => decide (a.toNat < b.toNat) || (decide (a = b) && keyLt as bs)

/-- The assignment `m[k] = v` on a map kept in increasing key order. -/
def mapSet : List (String × GoVal) → String → GoVal → List (String × GoVal)
  | [], k, v => [(k, v)]
  | (k1, v1) :: m, k, v =>
    if k = k1 then (k, v) :: m
    else if keyLt k.data k1.data then (k, v) :: (k1, v1) :: m
    else (k1, v1) :: mapSet m k v

/-- The Go value that the decoder stores in an empty `interface{}` for a
document (`valueInterface`): nil, `bool`, `float64`, `string`,
`[]interface{}` or `map[string]interface{}`.  A number out of the range of
`float64` is stored as nil, and a later entry of an object replaces an earlier
one with the same key. -/
def toInterface : JVal → GoVal
  | .null => .nil
  | .bool b => .bool b
  | .num neg n e =>
    match F64.ofDecimal neg n e with
    | some f => .float64 f
    | none => .nil
  | .str s => .string (String.mk s)
  | .arr xs => .slice (elems xs)
  | .obj kvs => .map (entries kvs [])
where
  /-- The elements of an array, in order. -/
  elems : List JVal → List GoVal
    | [] => []
    | x :: xs => toInterface x :: elems xs
  /-- The entries of an object, assigned one after the other to the map `m`. -/
  entries : List (List Char × JVal) → List (String × GoVal) → List (String × GoVal)
    | [], m => m
    | (k, x) :: kvs, m => entries kvs (mapSet m (String.mk k) (toInterface x))

/-- Whether a document holds a number out of the range of `float64`, for which
the decoder saves an `UnmarshalTypeError`. -/
def hasRangeError : JVal → Bool
  | .num neg n e => (F64.ofDecimal neg n e).isNone
  | .arr xs => anyElem xs
  | .obj kvs => anyEntry kvs
  | _ => false
where
  /-- Some element holds such a number. -/
  anyElem : List JVal → Bool
    | [] => false
    | x :: xs => hasRangeError x || anyElem xs
  /-- Some entry holds such a number. -/
  anyEntry : List (List Char × JVal) → Bool
    | [] => false
    | (_, x) :: kvs => hasRangeError x || anyEntry kvs

/-- The representative of a character under simple case folding, for the
characters that fold to a letter of the three field names: an upper-case ASCII
letter folds to its lower-case letter, the long s (U+017F) to `s` and the
Kelvin sign (U+212A) to `k`. -/
def foldChar (c : Char) : Char :=
  if 65 ≤ c.toNat ∧ c.toNat ≤ 90 then Char.ofNat (c.toNat + 32)
  else if c.toNat = 383 then 's'
  else if c.toNat = 8490 then 'k'
  else c

/-- The fields of the struct `Signal`. -/
inductive Field where
  | signal
  | peer
  | data
  deriving DecidableEq, Repr

/-- The field that a key of an object selects: the field whose name is the key,
and otherwise the first field whose name equals the key under case folding. -/
def fieldOf (key : List Char) : Option Field :=
  if key = "signal".data then some .signal
  else if key = "peer".data then some .peer
  else if key = "data".data then some .data
  else if key.map foldChar = "signal".data then some .signal
  else if key.map foldChar = "peer".data then some .peer
  else if key.map foldChar = "data".data then some .data
  else none

/-- The first error of a decoding is the one that is kept (`saveError`). -/
def saveError (saved : Option Error) (e : Error) : Option Error :=
  match saved with
  | none => some e
  | some e0 => some e0

/-- A value stored into a field of kind string: a string is stored, `null`
leaves the field as it is, and anything else leaves the field as it is and
saves an `UnmarshalTypeError`. -/
def storeString (old : GoString) (saved : Option Error) (v : JVal) :
    GoString × Option Error :=
  match v with
  | .str s => (GoString.ofChars s, saved)
  | .null => (old, saved)
  | _ => (old, saveError saved .unmarshalType)

/-- A value stored into the field `Data`, of type `interface{}`: `null` stores
nil, a number out of range leaves the field as it is and saves an error, and
every other value stores what `toInterface` gives, saving an error for a number
out of range inside it. -/
def storeData (old : GoVal) (saved : Option Error) (v : JVal) : GoVal × Option Error :=
  match v with
  | .num neg n e =>
    match F64.ofDecimal neg n e with
    | some f => (.float64 f, saved)
    | none => (old, saveError saved .unmarshalType)
  | _ => (toInterface v, if hasRangeError v then saveError saved .unmarshalType else saved)

/-- The members of an object stored one after the other into a `Signal`
(`d.object` on a struct); a key that selects no field is skipped. -/
def storeMembers : List (List Char × JVal) → Signal → Option Error → Signal × Option Error
  | [], sig, saved => (sig, saved)
  | (k, v) :: kvs, sig, saved =>
    match fieldOf k with
    | some .signal =>
      storeMembers kvs { sig with Signal := (storeString sig.Signal saved v).1 }
        (storeString sig.Signal saved v).2
    | some .peer =>
      storeMembers kvs { sig with Peer := (storeString sig.Peer saved v).1 }
        (storeString sig.Peer saved v).2
    | some .data =>
      storeMembers kvs { sig with Data := (storeData sig.Data saved v).1 }
        (storeData sig.Data saved v).2
    | none => storeMembers kvs sig saved

/-- The call `json.Unmarshal(data, &sig)` for a `Signal`: the value of `sig`
after the call and the error returned.  Text that is not one JSON value gives
a `SyntaxError` and leaves `sig` untouched; `null` does nothing; an object is
stored member by member; any other value leaves `sig` untouched and gives an
`UnmarshalTypeError`. -/
def jsonUnmarshalSignal (data : Frame) (sig : Signal) : Signal × Option Error :=
  match parseJSON data with
  | none => (sig, some .invalidJSON)
  | some .null => (sig, none)
  | some (.obj kvs) => storeMembers kvs sig none
  | some _ => (sig, some .unmarshalType)

/-! ## The websocket connection and the cancellation context

The package keeps a `*websocket.Conn`, a `context.Context` and its
`context.CancelFunc`.  They live on the heap: the world holds every connection
and every context ever created, and a pointer is an index into these lists.
What the network does is part of the world as well: the outcome of the coming
calls of `Dial`, and for each connection what its coming reads find and which
of its coming writes fail. -/

/-- What a call of `Read` finds on a connection: a text frame, or a failure
together with the bytes that `Read` returns beside the error. -/
inductive Recv where
  | frame (f : Frame)
  | fail (e : Error) (got : Frame)
  deriving DecidableEq, Repr

/-- The value `url.URL{Scheme: scheme, Host: signalServerAddr, Path: "/signal"}`. -/
structure URL where
  Scheme : String
  Host : String
  Path : String
  deriving DecidableEq, Repr

/-- The state of a `*websocket.Conn`: the URL it was dialled with, whether it
is closed, the frames handed to `Write` so far, what the coming reads find, and
the outcome of the coming writes (`some e` is a write that fails with `e`; when
the list is used up writes succeed). -/
structure Conn where
  url : URL
  closed : Bool
  writes : List Frame
  inbound : List Recv
  faults : List (Option Error)
  deriving DecidableEq, Repr

/-- The outcome of a call of `websocket.Dial`: an error, or a connection with
its coming reads and write outcomes. -/
inductive DialOutcome where
  | refuse (e : Error)
  | accept (inbound : List Recv) (faults : List (Option Error))
  deriving DecidableEq, Repr

/-- The heap and the network: the connections, for each context whether it is
cancelled, and the outcomes of the coming calls of `Dial` (when the list is
used up a dial fails). -/
structure World where
  conns : List Conn
  ctxs : List Bool
  dials : List DialOutcome
  deriving DecidableEq, Repr

/-- The struct `SignalClient` (source lines 22-26).  A field is `none` when the
Go field is nil; `cancel` holds the context that the function cancels. -/
structure SignalClient where
  conn : Option Nat
  ctx : Option Nat
  cancel : Option Nat
  deriving DecidableEq, Repr

/-- The result of running a Go function in a world: it returns a value and
leaves a world, or it panics, or it blocks for ever in a read that nothing
answers, in the world it has reached by then. -/
inductive Res (α : Type) where
  | ret (a : α) (w : World)
  | panic
  | block (w : World)
  deriving DecidableEq, Repr

/-- The world that a run leaves behind, when it returns or blocks. -/
def Res.world {α : Type} : Res α → Option World
  | .ret _ w => some w
  | .panic => none
  | .block w => some w

/-- The frames handed to `Write` on the connection `c`, in order. -/
def World.writes (w : World) (c : Nat) : List Frame :=
  match w.conns[c]? with
  | some conn => conn.writes
  | none => []

/-- What the coming reads on the connection `c` find. -/
def World.inbound (w : World) (c : Nat) : List Recv :=
  match w.conns[c]? with
  | some conn => conn.inbound
  | none => []

/-- Whether the context `k` is cancelled. -/
def World.cancelled (w : World) (k : Nat) : Bool :=
  w.ctxs.getD k false

/-- Whether the connection `c` exists and is not closed. -/
def World.isOpen (w : World) (c : Nat) : Bool :=
  match w.conns[c]? with
  | some conn => !conn.closed
  | none => false

/-- The call `context.WithCancel(context.Background())`: a new context that is
not cancelled. -/
def withCancel (w : World) : Nat × World :=
  (w.ctxs.length, { w with ctxs := w.ctxs ++ [false] })

/-- The call of the cancel function of the context `k`. -/
def cancelCtx (w : World) (k : Nat) : World :=
  { w with ctxs := w.ctxs.set k true }

/-- The call `websocket.Dial(ctx, u.String(), nil)`: the next outcome the
network has for a dial, a nil connection and an error or a new open connection
and no error. -/
def wsDial (w : World) (u : URL) : Option Nat × Option Error × World :=
  match w.dials with
  | [] => (none, some .dial, w)
  | .refuse e :: ds => (none, some e, { w with dials := ds })
  | .accept inbound faults :: ds =>
    (some w.conns.length, none,
      { w with dials := ds, conns := w.conns ++ [⟨u, false, [], inbound, faults⟩] })

/-- The call `c.Write(ctx, websocket.MessageText, d)` on the connection `c`.
The frame is recorded as handed to `Write`.  The write fails on a closed
connection, under a cancelled context, and when the network makes it fail; as
the library documents, a connection is closed on any error of its methods. -/
def wsWrite (w : World) (c k : Nat) (d : Frame) : Option Error × World :=
  match w.conns[c]? with
  | none => (some .closed, w)
  | some conn =>
    let conn1 : Conn := { conn with writes := conn.writes ++ [d] }
    if conn.closed then
      (some .closed, { w with conns := w.conns.set c conn1 })
    else if w.cancelled k then
      (some .canceled, { w with conns := w.conns.set c { conn1 with closed := true } })
    else
      match conn.faults with
      | some e :: fs =>
        (some e, { w with conns := w.conns.set c { conn1 with closed := true, faults := fs } })
      | none :: fs =>
        (none, { w with conns := w.conns.set c { conn1 with faults := fs } })
      | [] =>
        (none, { w with conns := w.conns.set c conn1 })

/-- The call `c.Read(ctx)` on the connection `c`, without the message type: it
fails on a closed connection and under a cancelled context, otherwise it takes
what the network has next, and blocks when the network has nothing. -/
def wsRead (w : World) (c k : Nat) : Res (Frame × Option Error) :=
  match w.conns[c]? with
  | none => .ret ([], some .closed) w
  | some conn =>
    if conn.closed then .ret ([], some .closed) w
    else if w.cancelled k then
      .ret ([], some .canceled) { w with conns := w.conns.set c { conn with closed := true } }
    else
      match conn.inbound with
      | [] => .block w
      | .frame f :: rest =>
        .ret (f, none) { w with conns := w.conns.set c { conn with inbound := rest } }
      | .fail e got :: rest =>
        .ret (got, some e)
          { w with conns := w.conns.set c { conn with inbound := rest, closed := true } }

/-- The call `c.Close(websocket.StatusNormalClosure, "done")` on the connection
`c`; the error it returns is not looked at by the package. -/
def wsClose (w : World) (c : Nat) : World :=
  match w.conns[c]? with
  | none => w
  | some conn => { w with conns := w.conns.set c { conn with closed := true } }

/-! ## The package -/

/-- The zero value of `Signal`. -/
def zeroSignal : Signal := ⟨"", "", .nil⟩

/-- The function `New` (source lines 18-20): a client whose fields are nil. -/
def New : SignalClient := ⟨none, none, none⟩

/-- The method `Close` (source lines 74-78).  On a nil connection the call
`cli.conn.Close` dereferences a nil pointer, and a nil `cli.cancel` cannot be
called: both panic. -/
def Close (w : World) (cli : SignalClient) : Res Unit :=
  match cli.conn with
  | none => .panic
  | some c =>
    match cli.cancel with
    | none => .panic
    | some k => .ret () (cancelCtx (wsClose w c) k)

/-- The method `waitAnswer` (source lines 91-97): one `Read` on the connection
of the client, whose bytes and error are returned as they are. -/
def waitAnswer (w : World) (cli : SignalClient) : Res (Frame × Option Error) :=
  match cli.conn, cli.ctx with
  | some c, some k => wsRead w c k
  | _, _ => .panic

/-- The method `WaitSignal` (source lines 81-88): when the read fails the
zero `Signal` and the error are returned; otherwise the message is decoded
into `sig` and the error of `json.Unmarshal` is dropped. -/
def WaitSignal (w : World) (cli : SignalClient) : Res (Signal × Option Error) :=
  match waitAnswer w cli with
  | .ret (message, err) w1 =>
    match err with
    | some e => .ret (zeroSignal, some e) w1
    | none => .ret ((jsonUnmarshalSignal message zeroSignal).1, none) w1
  | .panic => .panic
  | .block w1 => .block w1

/-- The method `writeSignal` (source lines 125-133): the bytes of
`json.Marshal(Signal{signal, peer, data})`, whose error is dropped, are written
to the connection and the error of the write is returned. -/
def writeSignal (w : World) (cli : SignalClient) (signal peer : GoString) (data : GoVal) :
    Res (Option Error) :=
  let d := (jsonMarshalSignal ⟨signal, peer, data⟩).1
  match cli.conn, cli.ctx with
  | some c, some k => .ret (wsWrite w c k d).1 (wsWrite w c k d).2
  | _, _ => .panic

/-- The method `WriteOffer` (source lines 100-108). -/
def WriteOffer (w : World) (cli : SignalClient) (peer : GoString) (offer : GoVal) :
    Res (Frame × Option Error) :=
  match writeSignal w cli "offer" peer offer with
  | .ret (some e) w1 => .ret ([], some e) w1
  | .ret none w1 => waitAnswer w1 cli
  | .panic => .panic
  | .block w1 => .block w1

/-- The method `WriteAnswer` (source lines 111-115). -/
def WriteAnswer (w : World) (cli : SignalClient) (peer : GoString) (answer : GoVal) :
    Res (Option Error) :=
  writeSignal w cli "answer" peer answer

/-- The method `WriteCandidate` (source lines 118-122). -/
def WriteCandidate (w : World) (cli : SignalClient) (peer : GoString) (candidate : GoVal) :
    Res (Option Error) :=
  writeSignal w cli "candidate" peer candidate

/-- The method `Connect` (source lines 40-71); it returns the client as the
call leaves it and the error.  A failed dial cancels the new context and leaves
the client as it was.  Otherwise connection, context and cancel function are
stored, the login frame is written, and after a failed write `Close` is called;
after a successful one a frame is awaited and its bytes and error are dropped. -/
def Connect (w : World) (cli : SignalClient) (scheme signalServerAddr : String)
    (peerLogin : GoString) :
    Res (SignalClient × Option Error) :=
  let u : URL := ⟨scheme, signalServerAddr, "/signal"⟩
  let k := (withCancel w).1
  match wsDial (withCancel w).2 u with
  | (_, some err, w1) => .ret (cli, some err) (cancelCtx w1 k)
  | (none, none, _) => .panic
  | (some c, none, w1) =>
    let cli1 : SignalClient := ⟨some c, some k, some k⟩
    match jsonMarshalLogin ⟨"login", peerLogin⟩ with
    | (_, some err) =>
      match Close w1 cli1 with
      | .ret _ w2 => .ret (cli1, some err) w2
      | .panic => .panic
      | .block w2 => .block w2
    | (d, none) =>
      match wsWrite w1 c k d with
      | (some err, w2) =>
        match Close w2 cli1 with
        | .ret _ w3 => .ret (cli1, some err) w3
        | .panic => .panic
        | .block w3 => .block w3
      | (none, w2) =>
        match waitAnswer w2 cli1 with
        | .ret _ w3 => .ret (cli1, none) w3
        | .panic => .panic
        | .block w3 => .block w3

/-- A logged-in session: the client holds the connection `c`, whose state is
`conn`, and the context `k` with its cancel function; the connection is not
closed and the context is not cancelled. -/
def LoggedIn (w : World) (cli : SignalClient) (c k : Nat) (conn : Conn) : Prop :=
  cli = ⟨some c, some k, some k⟩ ∧ w.conns[c]? = some conn ∧ conn.closed = false ∧
    w.cancelled k = false

/-- The world in which the connection `c` is in the state `conn`. -/
def World.setConn (w : World) (c : Nat) (conn : Conn) : World :=
  { w with conns := w.conns.set c conn }

/-! ## What the text of a value stands for -/

/-- Whether the text cannot continue a number literal that ends before it: it
is empty or starts with a character other than a digit, a point and an `e`. -/
def numEnd : List Char → Bool
  | [] => true
  | c :: _ => !(c.isDigit || c = '.' || c = 'e' || c = 'E')

/-- The document that the JSON text of a Go value stands for. -/
def docOf : GoVal → JVal
  | .nil => .null
  | .bool b => .bool b
  | .int n => .num (decide (n < 0)) n.natAbs 0
  | .float64 f =>
    match parseNumber (encodeFloat f) with
    | some (j, _) => j
    | none => .null
  | .string s => .str s.data
  | .slice xs => .arr (elems xs)
  | .map kvs => .obj (entries kvs)
  | .chan => .null
where
  /-- The documents of the elements of a slice. -/
  elems : List GoVal → List JVal
    | [] => []
    | x :: xs => docOf x :: elems xs
  /-- The members of the entries of a map. -/
  entries : List (String × GoVal) → List (List Char × JVal)
    | [] => []
    | (k, x) :: kvs => (k.data, docOf x) :: entries kvs

/-- Whether the text of a float64 is a number literal and nothing else. -/
def floatText (f : F64) : Bool :=
  match parseNumber (encodeFloat f) with
  | some (.num _ _ _, []) => true
  | _ => false

/-- The Go values that `json.Marshal` can encode and whose text the embedding
can follow: no channel anywhere, and every float64 written as a number
literal. -/
def plain : GoVal → Bool
  | .nil => true
  | .bool _ => true
  | .int _ => true
  | .float64 f => floatText f
  | .string _ => true
  | .slice xs => all xs
  | .map kvs => allEntries kvs
  | .chan => false
where
  /-- Every element is such a value. -/
  all : List GoVal → Bool
    | [] => true
    | x :: xs => plain x && all xs
  /-- Every entry holds such a value. -/
  allEntries : List (String × GoVal) → Bool
    | [] => true
    | (_, x) :: kvs => plain x && allEntries kvs

/-- The number of slices and maps nested in one another in a Go value. -/
def nesting : GoVal → Nat
  | .slice xs => 1 + ofElems xs
  | .map kvs => 1 + ofEntries kvs
  | _ => 0
where
  /-- The largest nesting of an element. -/
  ofElems : List GoVal → Nat
    | [] => 0
    | x :: xs => max (nesting x) (ofElems xs)
  /-- The largest nesting of an entry. -/
  ofEntries : List (String × GoVal) → Nat
    | [] => 0
    | (_, x) :: kvs => max (nesting x) (ofEntries kvs)

/-- A text starts a value: its first character is neither white space nor a
closing bracket. -/
def startsValue (b : List Char) : Prop :=
  ∃ c t, b = c :: t ∧ isSpace c = false ∧ c ≠ ']'

/-- The text of the Go value `v` is read back as the document `docOf v`, at
any nesting depth that leaves room for the nesting of `v`, and in front of any
text that cannot continue a number. -/
def ValueReads (v : GoVal) : Prop :=
  ∃ b, encodeValue v = .ok b ∧ startsValue b ∧
    ∀ fuel depth rest, 2 * b.length ≤ fuel → depth + nesting v ≤ maxNestingDepth →
      numEnd rest = true → parseValue fuel depth (b ++ rest) = some (docOf v, rest)

/-- The text of the elements of a non-empty slice, up to the closing bracket,
is read back as the documents of the elements. -/
def ElemsRead : List GoVal → Prop
  | [] => True
  | x :: xs =>
    ∃ b bs, encodeValue x = .ok b ∧ encodeValue.encodeElems xs = .ok bs ∧ startsValue b ∧
      ∀ fuel depth rest, 2 * (b.length + bs.length) + 1 ≤ fuel →
        depth + nesting.ofElems (x :: xs) ≤ maxNestingDepth →
        parseElements fuel depth (b ++ (bs ++ rest)) = some (docOf.elems (x :: xs), rest)

/-- The text of the entries of a non-empty map, up to the closing brace, is
read back as the members of the entries. -/
def EntriesRead : List (String × GoVal) → Prop
  | [] => True
  | (k, x) :: kvs =>
    ∃ b bs, encodeValue x = .ok b ∧ encodeValue.encodeEntries kvs = .ok bs ∧
      ∀ fuel depth rest, 2 * (b.length + bs.length) + 1 ≤ fuel →
        depth + nesting.ofEntries ((k, x) :: kvs) ≤ maxNestingDepth →
        parseMembers fuel depth (encodeString k ++ ':' :: (b ++ (bs ++ rest))) =
          some (docOf.entries ((k, x) :: kvs), rest)

/-- Whether the text of a float64 is read back as the same float64. -/
def floatReadsBack (f : F64) : Bool :=
  match parseNumber (encodeFloat f) with
  | some (.num neg n e, []) => decide (F64.ofDecimal neg n e = some f)
  | _ => false

/-- Whether the keys of the entries increase strictly, as they do in the
representation of a Go map. -/
def ascending : List (String × GoVal) → Bool
  | [] => true
  | [_] => true
  | (k1, _) :: (k2, v) :: rest => keyLt k1.data k2.data && ascending ((k2, v) :: rest)

/-- The Go values of the shapes that `json.Unmarshal` stores in an
`interface{}`: nil, `bool`, `string`, a float64 whose text is read back as
itself, and slices and maps of such values, every map with its entries in
increasing key order. -/
def generic : GoVal → Bool
  | .nil => true
  | .bool _ => true
  | .int _ => false
  | .float64 f => floatReadsBack f
  | .string _ => true
  | .slice xs => all xs
  | .map kvs => allEntries kvs && ascending kvs
  | .chan => false
where
  /-- Every element is such a value. -/
  all : List GoVal → Bool
    | [] => true
    | x :: xs => generic x && all xs
  /-- Every entry holds such a value. -/
  allEntries : List (String × GoVal) → Bool
    | [] => true
    | (_, x) :: kvs => generic x && allEntries kvs

/-- A world for examples: one open connection, dialled at `ws://relay:8080/signal`,
with the given coming reads and write outcomes, under one live context. -/
def sessionWorld (inbound : List Recv) (faults : List (Option Error)) : World :=
  ⟨[⟨⟨"ws", "relay:8080", "/signal"⟩, false, [], inbound, faults⟩], [false], []⟩

/-- The client of the session of `sessionWorld`. -/
def sessionClient : SignalClient := ⟨some 0, some 0, some 0⟩

/-! ## Reading back what was written -/

theorem hexVal_hexDigit (k : Nat) (h : k < 16) : hexVal (hexDigit k) = some k := by
  interval_cases k <;> decide

theorem hex4Val_hex4 (n : Nat) (h : n < 65536) :
    ∃ a b c d, hex4 n = [a, b, c, d] ∧ hex4Val a b c d = some n := by
  refine ⟨_, _, _, _, rfl, ?_⟩
  have h1 := hexVal_hexDigit (n / 4096 % 16) (Nat.mod_lt _ (by norm_num))
  have h2 := hexVal_hexDigit (n / 256 % 16) (Nat.mod_lt _ (by norm_num))
  have h3 := hexVal_hexDigit (n / 16 % 16) (Nat.mod_lt _ (by norm_num))
  have h4 := hexVal_hexDigit (n % 16) (Nat.mod_lt _ (by norm_num))
  simp only [hex4Val, h1, h2, h3, h4]
  congr 1
  omega

/-- Reading back the text of one character gives the character. -/
theorem parseString_escapeChar (c : Char) (tail : List Char) (f : Nat) :
    parseString (f + 1) (escapeChar c ++ tail) =
      match parseString f tail with
      | some (s, rest) => some (c :: s, rest)
      | none => none := by
  unfold escapeChar
  split_ifs with h1 h2 h3 h4 h5 h6
  · subst h1; simp [parseString]
  · subst h2; simp [parseString]
  · subst h3; simp [parseString]
  · subst h4; simp [parseString]
  · subst h5; simp [parseString]
  · have hlt : c.toNat < 55296 := by
      rcases h6 with h | h | h | h | h | h
      · omega
      · subst h; decide
      · subst h; decide
      · subst h; decide
      · omega
      · omega
    obtain ⟨a, b, x, d, hh, hv⟩ := hex4Val_hex4 c.toNat (by omega)
    simp [parseString, hh, hv, unescapeU, show ¬ (55296 ≤ c.toNat) by omega]
  · have h32 : ¬ c.toNat < 32 := by
      intro h; exact h6 (Or.inl h)
    simp [parseString, h1, h2, h32]

theorem escapeChars_length (s : List Char) : s.length ≤ (escapeChars s).length := by
  induction s with
  | nil => simp [escapeChars]
  | cons c s ih =>
    have : 1 ≤ (escapeChar c).length := by
      unfold escapeChar hex4
      split_ifs <;> simp
    simp [escapeChars]
    omega

/-- Reading back the body of a string literal gives the string. -/
theorem parseString_escapeChars (s rest : List Char) (f : Nat) (h : s.length < f) :
    parseString f (escapeChars s ++ '"' :: rest) = some (s, rest) := by
  induction s generalizing f with
  | nil =>
    obtain ⟨f, rfl⟩ : ∃ g, f = g + 1 := ⟨f - 1, by simp at h; omega⟩
    simp [escapeChars, parseString]
  | cons c s ih =>
    obtain ⟨f, rfl⟩ : ∃ g, f = g + 1 := ⟨f - 1, by simp at h; omega⟩
    have := ih f (by simp at h; omega)
    simp only [escapeChars, List.append_assoc]
    rw [parseString_escapeChar, this]

/-- A Go string that is valid UTF-8 is written character by character. -/
theorem escapeRunes_map_char (cs : List Char) :
    escapeRunes (cs.map GoRune.char) = escapeChars cs := by
  induction cs with
  | nil => rfl
  | cons c cs ih => simp only [List.map_cons, escapeRunes, escapeChars, ih]

/-- The string literal of a Go string that is valid UTF-8. -/
theorem encodeString_ofString (s : String) :
    encodeString s = '"' :: (escapeChars s.data ++ ['"']) := by
  simp only [encodeString, GoString.ofString, escapeRunes_map_char]

/-- A string literal at the head of a text is read back as the string. -/
theorem parseValue_string (s : String) (rest : List Char) (fuel depth : Nat) (h : 0 < fuel) :
    parseValue fuel depth (encodeString s ++ rest) = some (.str s.data, rest) := by
  obtain ⟨f, rfl⟩ : ∃ g, fuel = g + 1 := ⟨fuel - 1, by omega⟩
  have hl := escapeChars_length s.data
  simp only [encodeString_ofString, List.cons_append, List.append_assoc, parseValue, if_true]
  rw [parseString_escapeChars _ _ _ (by simp only [List.length_append, List.length_cons]; omega)]
  rfl

theorem escapeRunes_length (rs : List GoRune) : rs.length ≤ (escapeRunes rs).length := by
  induction rs with
  | nil => simp [escapeRunes]
  | cons r rs ih =>
    cases r with
    | char c =>
      have : 1 ≤ (escapeChar c).length := by
        unfold escapeChar hex4
        split_ifs <;> simp
      simp [escapeRunes]
      omega
    | byte b =>
      simp [escapeRunes]
      omega

/-- Reading back the body of the string literal of a Go string gives its
characters, with U+FFFD in place of every byte that is not valid UTF-8. -/
theorem parseString_escapeRunes (rs : List GoRune) (rest : List Char) (f : Nat)
    (h : rs.length < f) :
    parseString f (escapeRunes rs ++ '"' :: rest) = some (rs.map GoRune.toChar, rest) := by
  induction rs generalizing f with
  | nil =>
    obtain ⟨f, rfl⟩ : ∃ g, f = g + 1 := ⟨f - 1, by simp at h; omega⟩
    simp [escapeRunes, parseString]
  | cons r rs ih =>
    obtain ⟨f, rfl⟩ : ∃ g, f = g + 1 := ⟨f - 1, by simp at h; omega⟩
    have := ih f (by simp at h; omega)
    cases r with
    | char c =>
      simp only [escapeRunes, List.append_assoc]
      rw [parseString_escapeChar, this]
      rfl
    | byte b =>
      have hv : hex4Val 'f' 'f' 'f' 'd' = some 65533 := by decide
      simp [escapeRunes, parseString, hv, unescapeU, this, GoRune.toChar]

/-- The string literal of a Go string at the head of a text is read back as
the characters of the string, with U+FFFD in place of every byte that is not
valid UTF-8. -/
theorem parseValue_goString (s : GoString) (rest : List Char) (fuel depth : Nat)
    (h : 0 < fuel) :
    parseValue fuel depth (encodeString s ++ rest) = some (.str s.toRunes, rest) := by
  obtain ⟨f, rfl⟩ : ∃ g, fuel = g + 1 := ⟨fuel - 1, by omega⟩
  have hl := escapeRunes_length s.runes
  simp only [encodeString, List.cons_append, List.append_assoc, parseValue, if_true]
  rw [parseString_escapeRunes _ _ _ (by simp only [List.length_append, List.length_cons]; omega)]
  rfl

theorem toRunes_ofString (s : String) : (GoString.ofString s).toRunes = s.data := by
  simp [GoString.toRunes, GoString.ofString, List.map_map, Function.comp_def, GoRune.toChar]

theorem digit_ofNat (m : Nat) (h : m < 10) :
    (Char.ofNat (48 + m)).isDigit = true ∧ (Char.ofNat (48 + m)).toNat - 48 = m ∧
      (0 < m → Char.ofNat (48 + m) ≠ '0') := by
  interval_cases m <;> decide

/-- Reading the digits of a number multiplies what was read by a power of ten
and adds the number. -/
theorem takeDigits_digitsAux (fuel n : Nat) (acc : List Char) (h : n < fuel) :
    ∃ k, ∀ a cnt tail, takeDigits (digitsAux fuel n acc ++ tail) a cnt =
      takeDigits (acc ++ tail) (a * 10 ^ k + n) (cnt + k) := by
  induction fuel generalizing n acc with
  | zero => omega
  | succ fuel ih =>
    unfold digitsAux
    split_ifs with h10
    · refine ⟨1, fun a cnt tail => ?_⟩
      obtain ⟨h1, h2, -⟩ := digit_ofNat n h10
      simp [takeDigits, h1, h2]
    · obtain ⟨k, hk⟩ := ih (n / 10) (Char.ofNat (48 + n % 10) :: acc) (by omega)
      refine ⟨k + 1, fun a cnt tail => ?_⟩
      obtain ⟨h1, h2, -⟩ := digit_ofNat (n % 10) (Nat.mod_lt _ (by norm_num))
      rw [hk]
      simp only [List.cons_append, takeDigits, h1, if_true, h2]
      have e1 : (a * 10 ^ k + n / 10) * 10 + n % 10 = a * 10 ^ (k + 1) + n := by
        have := Nat.div_add_mod n 10
        rw [pow_succ]
        nlinarith
      rw [e1, Nat.add_assoc]
      rfl

/-- The text of a number starts with a digit, which is not zero unless the
number is. -/
theorem digitsAux_head (fuel n : Nat) (acc : List Char) (h : n < fuel) :
    ∃ c t, digitsAux fuel n acc = c :: t ∧ c.isDigit = true ∧ (0 < n → c ≠ '0') := by
  induction fuel generalizing n acc with
  | zero => omega
  | succ fuel ih =>
    unfold digitsAux
    split_ifs with h10
    · obtain ⟨h1, -, h3⟩ := digit_ofNat n h10
      exact ⟨_, _, rfl, h1, h3⟩
    · obtain ⟨c, t, hc, h1, h3⟩ := ih (n / 10) (Char.ofNat (48 + n % 10) :: acc) (by omega)
      exact ⟨c, t, hc, h1, fun _ => h3 (by omega)⟩

theorem takeDigits_numEnd (rest : List Char) (a cnt : Nat) (h : numEnd rest = true) :
    takeDigits rest a cnt = (a, cnt, rest) := by
  cases rest with
  | nil => rfl
  | cons c r =>
    simp [numEnd] at h
    obtain ⟨⟨⟨hd, -⟩, -⟩, -⟩ := h
    simp [takeDigits, hd]

theorem parseExp_numEnd (neg : Bool) (n cnt : Nat) (rest : List Char) (h : numEnd rest = true) :
    parseExp neg n cnt rest = some (.num neg n (-(cnt : Int)), rest) := by
  cases rest with
  | nil => rfl
  | cons c r =>
    simp [numEnd] at h
    obtain ⟨⟨⟨-, -⟩, he⟩, hE⟩ := h
    simp [parseExp, he, hE]

theorem parseFrac_numEnd (neg : Bool) (n : Nat) (rest : List Char) (h : numEnd rest = true) :
    parseFrac neg n rest = some (.num neg n 0, rest) := by
  cases rest with
  | nil => simp [parseFrac, parseExp]
  | cons c r =>
    have := parseExp_numEnd neg n 0 (c :: r) h
    simp [numEnd] at h
    obtain ⟨⟨⟨-, hp⟩, -⟩, -⟩ := h
    simpa [parseFrac, hp] using this

/-- A natural number written in decimal, with or without a minus sign, is read
back as that number. -/
theorem parseNumber_decimal (neg : Bool) (n : Nat) (rest : List Char) (h : numEnd rest = true) :
    parseNumber ((if neg then '-' :: decimal n else decimal n) ++ rest) =
      some (.num neg n 0, rest) := by
  obtain ⟨c, t, hc, hd, hz⟩ := digitsAux_head (n + 1) n [] (by omega)
  obtain ⟨k, hk⟩ := takeDigits_digitsAux (n + 1) n [] (by omega)
  have hcm : c ≠ '-' := by
    intro hcm; subst hcm; simp at hd
  have htd := hk 0 0 rest
  simp only [List.nil_append, zero_mul, zero_add] at htd
  rw [takeDigits_numEnd rest _ _ h, hc] at htd
  have key : (if c = '0' then parseFrac neg 0 (t ++ rest)
      else if c.isDigit then
        parseFrac neg (takeDigits (c :: (t ++ rest)) 0 0).1 (takeDigits (c :: (t ++ rest)) 0 0).2.2
      else none) = some (.num neg n 0, rest) := by
    by_cases hn : n = 0
    · subst hn
      have : c = '0' ∧ t = [] := by
        simp [digitsAux] at hc
        exact ⟨hc.1.symm, hc.2⟩
      obtain ⟨rfl, rfl⟩ := this
      simp [parseFrac_numEnd _ _ _ h]
    · have hc0 := hz (by omega)
      simp only [List.cons_append] at htd
      simp only [hc0, if_false, hd, if_true, htd]
      exact parseFrac_numEnd _ _ _ h
  cases neg with
  | false =>
    unfold parseNumber decimal
    rw [hc]
    simpa [hcm] using key
  | true =>
    unfold parseNumber decimal
    rw [hc]
    simpa using key

theorem takeDigits_append (t rest : List Char) (a cnt : Nat) (h : numEnd rest = true) :
    takeDigits (t ++ rest) a cnt =
      ((takeDigits t a cnt).1, (takeDigits t a cnt).2.1, (takeDigits t a cnt).2.2 ++ rest) := by
  induction t generalizing a cnt with
  | nil => simp [takeDigits_numEnd rest _ _ h, takeDigits]
  | cons c t ih =>
    by_cases hc : c.isDigit = true
    · simp [takeDigits, hc, ih]
    · simp [takeDigits, hc]

theorem parseExp_append (neg : Bool) (n cnt : Nat) (t rest r : List Char) (j : JVal)
    (hp : parseExp neg n cnt t = some (j, r)) (h : numEnd rest = true) :
    parseExp neg n cnt (t ++ rest) = some (j, r ++ rest) := by
  cases t with
  | nil =>
    simp [parseExp] at hp
    obtain ⟨rfl, rfl⟩ := hp
    simpa using parseExp_numEnd neg n cnt rest h
  | cons e r0 =>
    by_cases he : e = 'e' ∨ e = 'E'
    · cases r0 with
      | nil => simp [parseExp, he] at hp
      | cons s t1 =>
        by_cases hs : s = '-' ∨ s = '+'
        · cases t1 with
          | nil => simp [parseExp, he, hs] at hp
          | cons d t2 =>
            by_cases hd : d.isDigit = true
            · simp only [parseExp, he, hs, hd, if_true, Option.some.injEq, Prod.mk.injEq] at hp
              obtain ⟨rfl, rfl⟩ := hp
              have td := takeDigits_append (d :: t2) rest 0 0 h
              simp only [List.cons_append] at td
              simp [parseExp, he, hs, hd, td]
            · simp [parseExp, he, hs, hd] at hp
        · by_cases hd : s.isDigit = true
          · simp only [parseExp, he, hs, hd, if_true, if_false, Option.some.injEq,
              Prod.mk.injEq] at hp
            obtain ⟨rfl, rfl⟩ := hp
            have td := takeDigits_append (s :: t1) rest 0 0 h
            simp only [List.cons_append] at td
            simp [parseExp, he, hs, hd, td]
          · simp [parseExp, he, hs, hd] at hp
    · simp only [parseExp, he, if_false, Option.some.injEq, Prod.mk.injEq] at hp
      obtain ⟨rfl, rfl⟩ := hp
      simp [parseExp, he]

theorem parseFrac_append (neg : Bool) (n : Nat) (t rest r : List Char) (j : JVal)
    (hp : parseFrac neg n t = some (j, r)) (h : numEnd rest = true) :
    parseFrac neg n (t ++ rest) = some (j, r ++ rest) := by
  cases t with
  | nil =>
    simp [parseFrac, parseExp] at hp
    obtain ⟨rfl, rfl⟩ := hp
    simpa using parseFrac_numEnd neg n rest h
  | cons p r0 =>
    by_cases hpt : p = '.'
    · cases r0 with
      | nil => simp [parseFrac, hpt] at hp
      | cons d t1 =>
        by_cases hd : d.isDigit = true
        · simp only [parseFrac, hpt, hd, if_true] at hp
          simp only [List.cons_append, parseFrac, hpt, hd, if_true]
          have := takeDigits_append (d :: t1) rest n 0 h
          simp only [List.cons_append] at this
          rw [this]
          exact parseExp_append _ _ _ _ _ _ _ hp h
        · simp [parseFrac, hpt, hd] at hp
    · simp only [parseFrac, hpt, if_false] at hp
      simp only [List.cons_append, parseFrac, hpt, if_false]
      exact parseExp_append _ _ _ _ _ _ _ hp h

/-- A number literal that is read from a text is read the same way when the
text is followed by something that cannot continue a number. -/
theorem parseNumber_append (t rest r : List Char) (j : JVal)
    (hp : parseNumber t = some (j, r)) (h : numEnd rest = true) :
    parseNumber (t ++ rest) = some (j, r ++ rest) := by
  have key : ∀ (neg : Bool) (cs1 : List Char),
      (match cs1 with
        | d :: r =>
          if d = '0' then parseFrac neg 0 r
          else if d.isDigit then
            parseFrac neg (takeDigits cs1 0 0).1 (takeDigits cs1 0 0).2.2
          else none
        | [] => none) = some (j, r) →
      (match cs1 ++ rest with
        | d :: r =>
          if d = '0' then parseFrac neg 0 r
          else if d.isDigit then
            parseFrac neg (takeDigits (cs1 ++ rest) 0 0).1 (takeDigits (cs1 ++ rest) 0 0).2.2
          else none
        | [] => none) = some (j, r ++ rest) := by
    intro neg cs1 hk
    cases cs1 with
    | nil => simp at hk
    | cons d r1 =>
      by_cases h0 : d = '0'
      · simp only [h0, if_true] at hk
        simp only [List.cons_append, h0, if_true]
        exact parseFrac_append _ _ _ _ _ _ hk h
      · by_cases hd : d.isDigit = true
        · simp only [h0, if_false, hd, if_true] at hk
          simp only [List.cons_append, h0, if_false, hd, if_true]
          have := takeDigits_append (d :: r1) rest 0 0 h
          simp only [List.cons_append] at this
          rw [this]
          exact parseFrac_append _ _ _ _ _ _ hk h
        · simp [h0, hd] at hk
  cases t with
  | nil => simp [parseNumber] at hp
  | cons s t1 =>
    by_cases hs : s = '-'
    · subst hs
      unfold parseNumber at hp ⊢
      simp only [List.cons_append, decide_True, if_true] at hp ⊢
      exact key true t1 hp
    · unfold parseNumber at hp ⊢
      simp only [List.cons_append, hs, decide_False, if_false] at hp ⊢
      exact key false (s :: t1) hp

/-- A text that starts with a number literal is a value, the number. -/
theorem parseValue_number (t : List Char) (p : JVal × List Char) (fuel depth : Nat)
    (hp : parseNumber t = some p) : parseValue (fuel + 1) depth t = some p := by
  cases t with
  | nil => simp [parseNumber] at hp
  | cons c cs =>
    have h1 : c ≠ '"' := by rintro rfl; simp [parseNumber] at hp
    have h2 : c ≠ '[' := by rintro rfl; simp [parseNumber] at hp
    have h3 : c ≠ '\x7b' := by rintro rfl; simp [parseNumber] at hp
    have h4 : c ≠ 't' := by rintro rfl; simp [parseNumber] at hp
    have h5 : c ≠ 'f' := by rintro rfl; simp [parseNumber] at hp
    have h6 : c ≠ 'n' := by rintro rfl; simp [parseNumber] at hp
    simp only [parseValue, h1, h2, h3, h4, h5, h6, if_false]
    exact hp

theorem parseNumber_startsValue (t : List Char) (p : JVal × List Char)
    (hp : parseNumber t = some p) : startsValue t := by
  cases t with
  | nil => simp [parseNumber] at hp
  | cons c cs =>
    refine ⟨c, cs, rfl, ?_, ?_⟩
    · simp only [isSpace, Bool.or_eq_false_iff, decide_eq_false_iff_not]
      refine ⟨⟨⟨?_, ?_⟩, ?_⟩, ?_⟩ <;> (rintro rfl; simp [parseNumber] at hp)
    · rintro rfl; simp [parseNumber] at hp

theorem skipSpace_startsValue (b rest : List Char) (h : startsValue b) :
    skipSpace (b ++ rest) = b ++ rest := by
  obtain ⟨c, t, rfl, hc, -⟩ := h
  simp [skipSpace, hc]

theorem floatText_spec (f : F64) (h : floatText f = true) :
    ∃ neg n e, parseNumber (encodeFloat f) = some (.num neg n e, []) := by
  unfold floatText at h
  split at h
  · rename_i neg n e heq
    exact ⟨neg, n, e, heq⟩
  · simp at h

theorem valueReads_nil : ValueReads .nil := by
  refine ⟨_, rfl, ⟨'n', _, rfl, by decide, by decide⟩, fun fuel depth rest hf _ _ => ?_⟩
  obtain ⟨f, rfl⟩ : ∃ g, fuel = g + 1 := ⟨fuel - 1, by simp at hf; omega⟩
  simp [parseValue, docOf]

theorem valueReads_bool (x : Bool) : ValueReads (.bool x) := by
  cases x with
  | true =>
    refine ⟨_, rfl, ⟨'t', _, rfl, by decide, by decide⟩, fun fuel depth rest hf _ _ => ?_⟩
    obtain ⟨f, rfl⟩ : ∃ g, fuel = g + 1 := ⟨fuel - 1, by simp at hf; omega⟩
    simp [parseValue, docOf]
  | false =>
    refine ⟨_, rfl, ⟨'f', _, rfl, by decide, by decide⟩, fun fuel depth rest hf _ _ => ?_⟩
    obtain ⟨f, rfl⟩ : ∃ g, fuel = g + 1 := ⟨fuel - 1, by simp at hf; omega⟩
    simp [parseValue, docOf]

theorem valueReads_string (s : String) : ValueReads (.string s) := by
  refine ⟨_, rfl, ⟨'"', _, rfl, by decide, by decide⟩, fun fuel depth rest hf _ _ => ?_⟩
  have : 0 < fuel := by
    simp [encodeString] at hf; omega
  simpa [docOf] using parseValue_string s rest fuel depth this

theorem valueReads_number (v : GoVal) (t : List Char) (neg : Bool) (n : Nat) (e : Int)
    (henc : encodeValue v = .ok t) (hdoc : docOf v = .num neg n e)
    (hp : parseNumber t = some (.num neg n e, [])) : ValueReads v := by
  refine ⟨t, henc, parseNumber_startsValue _ _ hp, fun fuel depth rest hf _ hr => ?_⟩
  obtain ⟨c, cs, rfl, -, -⟩ := parseNumber_startsValue _ _ hp
  obtain ⟨f, rfl⟩ : ∃ g, fuel = g + 1 := ⟨fuel - 1, by simp at hf; omega⟩
  rw [hdoc]
  apply parseValue_number
  simpa using parseNumber_append _ rest _ _ hp hr

theorem valueReads_int (n : Int) : ValueReads (.int n) := by
  have h := parseNumber_decimal (decide (n < 0)) n.natAbs [] rfl
  simp only [List.append_nil] at h
  refine valueReads_number _ (encodeInt n) (decide (n < 0)) n.natAbs 0 rfl rfl ?_
  unfold encodeInt
  by_cases hn : n < 0
  · simpa [hn] using h
  · simpa [hn] using h

theorem valueReads_float (f : F64) (h : floatText f = true) : ValueReads (.float64 f) := by
  obtain ⟨neg, n, e, hp⟩ := floatText_spec f h
  exact valueReads_number _ (encodeFloat f) neg n e rfl (by simp [docOf, hp]) hp

theorem elemsRead_cons (x : GoVal) (xs : List GoVal) (hx : ValueReads x) (hxs : ElemsRead xs) :
    ElemsRead (x :: xs) := by
  obtain ⟨b, hb, hs, hpar⟩ := hx
  cases xs with
  | nil =>
    refine ⟨b, [']'], hb, rfl, hs, fun fuel depth rest hf hd => ?_⟩
    obtain ⟨f, rfl⟩ : ∃ g, fuel = g + 1 := ⟨fuel - 1, by omega⟩
    have h1 := hpar f depth (']' :: rest) (by omega)
      (by simp [nesting.ofElems] at hd; omega) rfl
    simp only [List.singleton_append]
    simp [parseElements, h1, skipSpace, isSpace, docOf.elems]
  | cons y ys =>
    obtain ⟨by1, bs1, hy, hys, hsy, hpy⟩ := hxs
    refine ⟨b, ',' :: (by1 ++ bs1), hb, ?_, hs, fun fuel depth rest hf hd => ?_⟩
    · simp [encodeValue.encodeElems, hy, hys]
    · obtain ⟨f, rfl⟩ : ∃ g, fuel = g + 1 := ⟨fuel - 1, by omega⟩
      simp only [List.length_cons, List.length_append] at hf
      have hd1 : depth + nesting x ≤ maxNestingDepth := by
        simp only [nesting.ofElems] at hd; omega
      have hd2 : depth + nesting.ofElems (y :: ys) ≤ maxNestingDepth := by
        simp only [nesting.ofElems] at hd ⊢; omega
      have h1 := hpar f depth (',' :: (by1 ++ (bs1 ++ rest))) (by omega) hd1 rfl
      have h2 := hpy f depth rest (by omega) hd2
      have h3 := skipSpace_startsValue by1 (bs1 ++ rest) hsy
      simp only [List.cons_append, List.append_assoc]
      simp [parseElements, h1, skipSpace, isSpace, h3, h2, docOf.elems]

theorem valueReads_slice (xs : List GoVal) (h : ElemsRead xs) : ValueReads (.slice xs) := by
  cases xs with
  | nil =>
    refine ⟨_, rfl, ⟨'[', _, rfl, by decide, by decide⟩, fun fuel depth rest hf hd _ => ?_⟩
    obtain ⟨f, rfl⟩ : ∃ g, fuel = g + 1 := ⟨fuel - 1, by simp at hf; omega⟩
    have : depth < maxNestingDepth := by simp [nesting] at hd; omega
    simp [parseValue, this, skipSpace, isSpace, docOf, docOf.elems]
  | cons x xs =>
    obtain ⟨b, bs, hb, hbs, hs, hpar⟩ := h
    refine ⟨'[' :: (b ++ bs), by simp [encodeValue, hb, hbs], ⟨'[', _, rfl, by decide, by decide⟩,
      fun fuel depth rest hf hd _ => ?_⟩
    obtain ⟨f, rfl⟩ : ∃ g, fuel = g + 1 := ⟨fuel - 1, by simp at hf; omega⟩
    simp only [List.length_cons, List.length_append] at hf
    have hdl : depth < maxNestingDepth := by simp [nesting] at hd; omega
    have h1 := hpar f (depth + 1) rest (by omega) (by simp only [nesting] at hd; omega)
    have h3 := skipSpace_startsValue b (bs ++ rest) hs
    obtain ⟨c, t, rfl, hc, hcb⟩ := hs
    simp only [List.cons_append, List.append_assoc] at h1 h3 ⊢
    simp [parseValue, hdl, h3, hcb, h1, docOf]

/-- The key of an entry, written as a string literal, is read back. -/
theorem parseString_key (k : String) (tail : List Char) :
    parseString ((escapeChars k.data ++ '"' :: tail).length + 1) (escapeChars k.data ++ '"' :: tail)
      = some (k.data, tail) := by
  have hl := escapeChars_length k.data
  exact parseString_escapeChars _ _ _ (by simp only [List.length_append, List.length_cons]; omega)

theorem encodeString_cons (k : String) (tail : List Char) :
    encodeString k ++ tail = '"' :: (escapeChars k.data ++ '"' :: tail) := by
  simp [encodeString_ofString]

/-- One step of reading the members of an object: the key and the colon. -/
theorem parseMembers_key (k : String) (tail : List Char) (f depth : Nat) :
    parseMembers (f + 1) depth (encodeString k ++ ':' :: tail) =
      match parseValue f depth (skipSpace tail) with
      | none => none
      | some (v, r2) =>
        match skipSpace r2 with
        | [] => none
        | c2 :: r3 =>
          if c2 = ',' then
            match parseMembers f depth (skipSpace r3) with
            | some (kvs, rest) => some ((k.data, v) :: kvs, rest)
            | none => none
          else if c2 = '\x7d' then some ([(k.data, v)], r3)
          else none := by
  rw [encodeString_cons]
  simp only [parseMembers, if_true]
  rw [parseString_key]
  simp [skipSpace, isSpace]

theorem skipSpace_encodeString (k : GoString) (tail : List Char) :
    skipSpace (encodeString k ++ tail) = encodeString k ++ tail := by
  simp [encodeString, skipSpace, isSpace]

/-- Reading an object that is not empty is reading its members. -/
theorem parseValue_object (k : String) (tail : List Char) (f depth : Nat)
    (hd : depth < maxNestingDepth) :
    parseValue (f + 1) depth ('\x7b' :: (encodeString k ++ tail)) =
      match parseMembers f (depth + 1) (encodeString k ++ tail) with
      | some (kvs, rest) => some (.obj kvs, rest)
      | none => none := by
  rw [encodeString_cons]
  simp [parseValue, hd, skipSpace, isSpace]

theorem entriesRead_cons (k : String) (x : GoVal) (kvs : List (String × GoVal))
    (hx : ValueReads x) (hxs : EntriesRead kvs) : EntriesRead ((k, x) :: kvs) := by
  obtain ⟨b, hb, hs, hpar⟩ := hx
  have h3 : ∀ tail, skipSpace (b ++ tail) = b ++ tail :=
    fun tail => skipSpace_startsValue b tail hs
  cases kvs with
  | nil =>
    refine ⟨b, ['\x7d'], hb, rfl, fun fuel depth rest hf hd => ?_⟩
    obtain ⟨f, rfl⟩ : ∃ g, fuel = g + 1 := ⟨fuel - 1, by omega⟩
    have h1 := hpar f depth ('\x7d' :: rest) (by omega)
      (by simp [nesting.ofEntries] at hd; omega) rfl
    rw [parseMembers_key, h3]
    simp [h1, skipSpace, isSpace, docOf.entries]
  | cons e es =>
    obtain ⟨k1, y⟩ := e
    obtain ⟨by1, bs1, hy, hys, hpy⟩ := hxs
    refine ⟨b, ',' :: (encodeString k1 ++ ':' :: (by1 ++ bs1)), hb, ?_, fun fuel depth rest hf hd => ?_⟩
    · simp [encodeValue.encodeEntries, hy, hys]
    · obtain ⟨f, rfl⟩ : ∃ g, fuel = g + 1 := ⟨fuel - 1, by omega⟩
      simp only [List.length_cons, List.length_append] at hf
      have hd1 : depth + nesting x ≤ maxNestingDepth := by
        simp only [nesting.ofEntries] at hd; omega
      have hd2 : depth + nesting.ofEntries ((k1, y) :: es) ≤ maxNestingDepth := by
        simp only [nesting.ofEntries] at hd ⊢; omega
      have h1 := hpar f depth (',' :: (encodeString k1 ++ ':' :: (by1 ++ (bs1 ++ rest))))
        (by omega) hd1 rfl
      have h2 := hpy f depth rest (by omega) hd2
      have h4 := skipSpace_encodeString k1 (':' :: (by1 ++ (bs1 ++ rest)))
      rw [parseMembers_key, h3]
      simp only [List.cons_append, List.append_assoc]
      rw [h1]
      simp only [skipSpace, isSpace, Bool.or_self, Bool.false_eq_true, if_false, if_true,
        decide_False, decide_True, Bool.or_false, reduceCtorEq]
      simp
      rw [h4, h2]
      simp [docOf.entries]

theorem valueReads_map (kvs : List (String × GoVal)) (h : EntriesRead kvs) :
    ValueReads (.map kvs) := by
  cases kvs with
  | nil =>
    refine ⟨_, rfl, ⟨'\x7b', _, rfl, by decide, by decide⟩, fun fuel depth rest hf hd _ => ?_⟩
    obtain ⟨f, rfl⟩ : ∃ g, fuel = g + 1 := ⟨fuel - 1, by simp at hf; omega⟩
    have : depth < maxNestingDepth := by simp [nesting] at hd; omega
    simp [parseValue, this, skipSpace, isSpace, docOf, docOf.entries]
  | cons e es =>
    obtain ⟨k, x⟩ := e
    obtain ⟨b, bs, hb, hbs, hpar⟩ := h
    refine ⟨'\x7b' :: (encodeString k ++ ':' :: (b ++ bs)), by simp [encodeValue, hb, hbs],
      ⟨'\x7b', _, rfl, by decide, by decide⟩, fun fuel depth rest hf hd _ => ?_⟩
    obtain ⟨f, rfl⟩ : ∃ g, fuel = g + 1 := ⟨fuel - 1, by simp at hf; omega⟩
    simp only [List.length_cons, List.length_append] at hf
    have hdl : depth < maxNestingDepth := by simp [nesting] at hd; omega
    have h1 := hpar f (depth + 1) rest (by omega) (by simp only [nesting] at hd; omega)
    simp only [List.cons_append, List.append_assoc]
    rw [parseValue_object _ _ _ _ hdl, h1]
    simp [docOf]

/-- The text that `json.Marshal` writes for a value is read back, by the
decoder, as the document of the value. -/
theorem valueReads_of_plain (v : GoVal) : plain v = true → ValueReads v := by
  refine @GoVal.rec (fun v => plain v = true → ValueReads v)
    (fun l => plain.all l = true → ElemsRead l)
    (fun l => plain.allEntries l = true → EntriesRead l)
    (fun p => plain p.2 = true → ValueReads p.2)
    (fun _ => valueReads_nil) (fun b _ => valueReads_bool b) (fun n _ => valueReads_int n)
    (fun f h => valueReads_float f (by simpa [plain] using h))
    (fun s _ => valueReads_string s)
    (fun xs ih h => valueReads_slice xs (ih (by simpa [plain] using h)))
    (fun kvs ih h => valueReads_map kvs (ih (by simpa [plain] using h)))
    (fun h => by simp [plain] at h)
    (fun _ => trivial)
    (fun x xs ihx ihxs h => ?_)
    (fun _ => trivial)
    (fun e es ihe ihes h => ?_)
    (fun k x ih h => ih h) v
  · simp only [plain.all, Bool.and_eq_true] at h
    exact elemsRead_cons x xs (ihx h.1) (ihxs h.2)
  · obtain ⟨k, x⟩ := e
    simp only [plain.allEntries, Bool.and_eq_true] at h
    exact entriesRead_cons k x es (ihe h.1) (ihes h.2)

theorem keyLt_irrefl (a : List Char) : keyLt a a = false := by
  induction a with
  | nil => rfl
  | cons c a ih => simp [keyLt, ih]

theorem keyLt_trans (a b c : List Char) (h1 : keyLt a b = true) (h2 : keyLt b c = true) :
    keyLt a c = true := by
  induction a generalizing b c with
  | nil =>
    cases b with
    | nil => simp [keyLt] at h1
    | cons y b =>
      cases c with
      | nil => simp [keyLt] at h2
      | cons z c => rfl
  | cons x a ih =>
    cases b with
    | nil => simp [keyLt] at h1
    | cons y b =>
      cases c with
      | nil => simp [keyLt] at h2
      | cons z c =>
        simp only [keyLt, Bool.or_eq_true, decide_eq_true_eq, Bool.and_eq_true] at h1 h2 ⊢
        rcases h1 with h1 | ⟨rfl, h1⟩
        · rcases h2 with h2 | ⟨rfl, h2⟩
          · exact Or.inl (by omega)
          · exact Or.inl h1
        · rcases h2 with h2 | ⟨rfl, h2⟩
          · exact Or.inl h2
          · exact Or.inr ⟨rfl, ih b c h1 h2⟩

theorem keyLt_asymm (a b : List Char) (h : keyLt a b = true) : keyLt b a = false := by
  cases hba : keyLt b a with
  | false => rfl
  | true =>
    have := keyLt_trans a b a h hba
    rw [keyLt_irrefl] at this
    exact absurd this (by simp)

/-- Assigning a key beyond all the keys of a map adds the entry at the end. -/
theorem mapSet_append (m : List (String × GoVal)) (k : String) (v : GoVal)
    (h : ∀ p ∈ m, keyLt p.1.data k.data = true) : mapSet m k v = m ++ [(k, v)] := by
  induction m with
  | nil => rfl
  | cons p m ih =>
    obtain ⟨k1, v1⟩ := p
    have h1 : keyLt k1.data k.data = true := h (k1, v1) (List.mem_cons_self _ _)
    have hne : k ≠ k1 := by
      rintro rfl
      rw [keyLt_irrefl] at h1
      exact absurd h1 (by simp)
    have h2 := keyLt_asymm _ _ h1
    simp only [mapSet, hne, if_false, h2, List.cons_append, Bool.false_eq_true]
    rw [ih (fun p hp => h p (List.mem_cons_of_mem _ hp))]

theorem ascending_tail (p : String × GoVal) (l : List (String × GoVal))
    (h : ascending (p :: l) = true) : ascending l = true := by
  cases l with
  | nil => rfl
  | cons q l =>
    obtain ⟨k1, v1⟩ := p
    obtain ⟨k2, v2⟩ := q
    simp only [ascending, Bool.and_eq_true] at h
    exact h.2

theorem ascending_before (m : List (String × GoVal)) (k : String) (x : GoVal)
    (t : List (String × GoVal)) (h : ascending (m ++ (k, x) :: t) = true) :
    ∀ p ∈ m, keyLt p.1.data k.data = true := by
  induction m with
  | nil => intro p hp; simp at hp
  | cons q m ih =>
    have hm := ih (ascending_tail _ _ h)
    intro p hp
    rcases List.mem_cons.mp hp with rfl | hp
    · cases m with
      | nil =>
        obtain ⟨k1, v1⟩ := p
        simp only [List.cons_append, List.nil_append, ascending, Bool.and_eq_true] at h
        exact h.1
      | cons r m =>
        obtain ⟨k1, v1⟩ := p
        obtain ⟨k2, v2⟩ := r
        simp only [List.cons_append, ascending, Bool.and_eq_true] at h
        exact keyLt_trans _ _ _ h.1 (hm (k2, v2) (List.mem_cons_self _ _))
    · exact hm p hp

theorem floatReadsBack_spec (f : F64) (h : floatReadsBack f = true) :
    ∃ neg n e, parseNumber (encodeFloat f) = some (.num neg n e, []) ∧
      F64.ofDecimal neg n e = some f := by
  unfold floatReadsBack at h
  split at h
  · rename_i neg n e heq
    exact ⟨neg, n, e, heq, by simpa using h⟩
  · simp at h

theorem floatText_of_readsBack (f : F64) (h : floatReadsBack f = true) : floatText f = true := by
  obtain ⟨neg, n, e, hp, -⟩ := floatReadsBack_spec f h
  simp [floatText, hp]

/-- A generic value is one whose text the decoder can follow. -/
theorem plain_of_generic (v : GoVal) : generic v = true → plain v = true := by
  refine @GoVal.rec (fun v => generic v = true → plain v = true)
    (fun l => generic.all l = true → plain.all l = true)
    (fun l => generic.allEntries l = true → plain.allEntries l = true)
    (fun p => generic p.2 = true → plain p.2 = true)
    (fun _ => rfl) (fun _ _ => rfl) (fun _ _ => rfl)
    (fun f h => floatText_of_readsBack f (by simpa [generic] using h))
    (fun _ _ => rfl)
    (fun xs ih h => by simpa [plain] using ih (by simpa [generic] using h))
    (fun kvs ih h => ?_)
    (fun h => by simp [generic] at h)
    (fun _ => rfl)
    (fun x xs ihx ihxs h => ?_)
    (fun _ => rfl)
    (fun e es ihe ihes h => ?_)
    (fun k x ih h => ih h) v
  · simp only [generic, Bool.and_eq_true] at h
    simpa [plain] using ih h.1
  · simp only [generic.all, Bool.and_eq_true] at h
    simp only [plain.all, Bool.and_eq_true]
    exact ⟨ihx h.1, ihxs h.2⟩
  · obtain ⟨k, x⟩ := e
    simp only [generic.allEntries, Bool.and_eq_true] at h
    simp only [plain.allEntries, Bool.and_eq_true]
    exact ⟨ihe h.1, ihes h.2⟩

/-- Storing the document of a generic value in an empty interface gives the
value back, and saves no error. -/
theorem toInterface_docOf (v : GoVal) :
    generic v = true → toInterface (docOf v) = v ∧ hasRangeError (docOf v) = false := by
  refine @GoVal.rec
    (fun v => generic v = true → toInterface (docOf v) = v ∧ hasRangeError (docOf v) = false)
    (fun l => generic.all l = true →
      toInterface.elems (docOf.elems l) = l ∧ hasRangeError.anyElem (docOf.elems l) = false)
    (fun l => generic.allEntries l = true →
      (∀ m, ascending (m ++ l) = true → toInterface.entries (docOf.entries l) m = m ++ l) ∧
        hasRangeError.anyEntry (docOf.entries l) = false)
    (fun p => generic p.2 = true →
      toInterface (docOf p.2) = p.2 ∧ hasRangeError (docOf p.2) = false)
    (fun _ => ⟨rfl, rfl⟩) (fun _ _ => ⟨rfl, rfl⟩) (fun n h => by simp [generic] at h)
    (fun f h => ?_)
    (fun s _ => ⟨rfl, rfl⟩)
    (fun xs ih h => ?_)
    (fun kvs ih h => ?_)
    (fun h => by simp [generic] at h)
    (fun _ => ⟨rfl, rfl⟩)
    (fun x xs ihx ihxs h => ?_)
    (fun _ => ⟨fun m _ => by simp [docOf.entries, toInterface.entries], rfl⟩)
    (fun e es ihe ihes h => ?_)
    (fun k x ih h => ih h) v
  · obtain ⟨neg, n, e, hp, hf⟩ := floatReadsBack_spec f (by simpa [generic] using h)
    simp [docOf, hp, toInterface, hasRangeError, hf]
  · obtain ⟨h1, h2⟩ := ih (by simpa [generic] using h)
    simp [docOf, toInterface, hasRangeError, h1, h2]
  · simp only [generic, Bool.and_eq_true] at h
    obtain ⟨h1, h2⟩ := ih h.1
    have := h1 [] (by simpa using h.2)
    simp only [List.nil_append] at this
    simp [docOf, toInterface, hasRangeError, this, h2]
  · simp only [generic.all, Bool.and_eq_true] at h
    obtain ⟨h1, h2⟩ := ihx h.1
    obtain ⟨h3, h4⟩ := ihxs h.2
    simp [docOf.elems, toInterface.elems, hasRangeError.anyElem, h1, h2, h3, h4]
  · obtain ⟨k, x⟩ := e
    simp only [generic.allEntries, Bool.and_eq_true] at h
    obtain ⟨h1, h2⟩ := ihe h.1
    obtain ⟨h3, h4⟩ := ihes h.2
    refine ⟨fun m hm => ?_, by simp [docOf.entries, hasRangeError.anyEntry, h2, h4]⟩
    have hk := mapSet_append m k x (ascending_before m k x es hm)
    have := h3 (m ++ [(k, x)]) (by simpa using hm)
    simp only [docOf.entries, toInterface.entries, h1]
    rw [hk, this]
    simp

/-- The text that `json.Marshal` writes for a value is, as a whole text, the
document of the value. -/
theorem parseJSON_encodeValue (v : GoVal) (b : List Char) (hp : plain v = true)
    (hd : nesting v ≤ maxNestingDepth) (hb : encodeValue v = .ok b) :
    parseJSON b = some (docOf v) := by
  obtain ⟨b1, hb1, hs, hpar⟩ := valueReads_of_plain v hp
  rw [hb] at hb1
  cases hb1
  have h1 := hpar (2 * b.length + 2) 0 [] (by omega) (by omega) rfl
  have h2 := skipSpace_startsValue b [] hs
  simp only [List.append_nil] at h1 h2
  simp [parseJSON, h2, h1, skipSpace]

/-- The bytes of `json.Marshal` for a `Signal` are the text of a map with the
three entries `signal`, `peer` and `data`, in this order. -/
theorem jsonMarshalSignal_eq (signal peer : String) (data : GoVal) (b : List Char)
    (hb : encodeValue data = .ok b) :
    encodeValue (.map [("signal", .string signal), ("peer", .string peer), ("data", data)])
      = .ok (jsonMarshalSignal ⟨signal, peer, data⟩).1 := by
  simp [encodeValue, encodeValue.encodeEntries, jsonMarshalSignal, hb, encodeString_ofString,
    escapeChars, escapeChar]

/-- The bytes of `json.Marshal` for a `Login` are the text of a map with the
two entries `signal` and `login`, in this order. -/
theorem jsonMarshalLogin_eq (signal login : String) :
    encodeValue (.map [("signal", .string signal), ("login", .string login)])
      = .ok (jsonMarshalLogin ⟨signal, login⟩).1 := by
  simp [encodeValue, encodeValue.encodeEntries, jsonMarshalLogin, encodeString_ofString,
    escapeChars, escapeChar]

/-- The frame of a signal with a payload that can be encoded is the JSON
object with the three members `signal`, `peer` and `data`, in this order. -/
theorem parseJSON_marshalSignal (signal peer : String) (data : GoVal)
    (hp : plain data = true) (hd : nesting data < maxNestingDepth) :
    parseJSON (jsonMarshalSignal ⟨signal, peer, data⟩).1 =
      some (.obj [("signal".data, .str signal.data), ("peer".data, .str peer.data),
        ("data".data, docOf data)]) := by
  obtain ⟨b, hb, -, -⟩ := valueReads_of_plain data hp
  have h := parseJSON_encodeValue _ _
    (show plain (.map [("signal", .string signal), ("peer", .string peer),
      ("data", data)]) = true by simp [plain, plain.allEntries, hp])
    (by simp [nesting, nesting.ofEntries]; omega) (jsonMarshalSignal_eq signal peer data b hb)
  simpa [docOf, docOf.entries] using h

/-- The frame of a login is the JSON object with the two members `signal` and
`login`, in this order; the member `login` holds the characters of the
identity, with U+FFFD in place of every byte that is not valid UTF-8. -/
theorem parseJSON_marshalLogin (login : GoString) :
    parseJSON (jsonMarshalLogin ⟨"login", login⟩).1 =
      some (.obj [("signal".data, .str "login".data), ("login".data, .str login.toRunes)]) := by
  have hf : (jsonMarshalLogin ⟨"login", login⟩).1 =
      '\x7b' :: (encodeString "signal" ++ ':' :: (encodeString "login" ++
        ',' :: (encodeString "login" ++ ':' :: (encodeString login ++ ['\x7d'])))) := by
    simp [jsonMarshalLogin, encodeString_ofString, escapeChars, escapeChar]
  obtain ⟨n, hn⟩ : ∃ n, 2 * (jsonMarshalLogin ⟨"login", login⟩).1.length + 2 = n + 4 :=
    ⟨2 * (jsonMarshalLogin ⟨"login", login⟩).1.length - 2, by
      rw [hf]; simp only [List.length_cons, List.length_append]; omega⟩
  have hsk : skipSpace (jsonMarshalLogin ⟨"login", login⟩).1 =
      (jsonMarshalLogin ⟨"login", login⟩).1 := by
    rw [hf]; simp [skipSpace, isSpace]
  have hsc : ∀ t : List Char, skipSpace (',' :: t) = ',' :: t := fun t => by
    simp [skipSpace, isSpace]
  have h1 : parseMembers (n + 2) 1 (encodeString "login" ++ ':' :: (encodeString login ++ ['\x7d']))
      = some ([("login".data, .str login.toRunes)], []) := by
    rw [parseMembers_key, skipSpace_encodeString, parseValue_goString _ _ _ _ (by omega)]
    simp [skipSpace, isSpace]
  have h2 : parseMembers (n + 3) 1 (encodeString "signal" ++ ':' :: (encodeString "login" ++
      ',' :: (encodeString "login" ++ ':' :: (encodeString login ++ ['\x7d'])))) =
      some ([("signal".data, .str "login".data), ("login".data, .str login.toRunes)], []) := by
    rw [parseMembers_key, skipSpace_encodeString, parseValue_string _ _ _ _ (by omega)]
    simp only [hsc, if_true, skipSpace_encodeString, h1]
  rw [parseJSON, hn, hsk, hf, parseValue_object _ _ _ _ (by decide), h2]
  simp [skipSpace]

theorem storeData_of_noRangeError (old : GoVal) (saved : Option Error) (j : JVal)
    (h : hasRangeError j = false) : storeData old saved j = (toInterface j, saved) := by
  cases j with
  | num neg n e =>
    simp only [hasRangeError] at h
    cases hf : F64.ofDecimal neg n e with
    | none => simp [hf] at h
    | some f => simp [storeData, toInterface, hf]
  | null => simp [storeData, h]
  | bool b => simp [storeData, h]
  | str s => simp [storeData, h]
  | arr xs => simp [storeData, h]
  | obj kvs => simp [storeData, h]

/-- Decoding the frame of a signal with a generic payload gives the signal
back, whatever the `Signal` decoded into held before. -/
theorem unmarshal_marshal (signal peer : String) (data : GoVal) (sig0 : Signal)
    (hg : generic data = true) (hd : nesting data < maxNestingDepth) :
    jsonUnmarshalSignal (jsonMarshalSignal ⟨signal, peer, data⟩).1 sig0 =
      (⟨signal, peer, data⟩, none) := by
  obtain ⟨h1, h2⟩ := toInterface_docOf data hg
  have hs : fieldOf "signal".data = some .signal := by decide
  have hpe : fieldOf "peer".data = some .peer := by decide
  have hda : fieldOf "data".data = some .data := by decide
  simp only [jsonUnmarshalSignal, parseJSON_marshalSignal signal peer data (plain_of_generic _ hg) hd,
    storeMembers, hs, hpe, hda, storeString, storeData_of_noRangeError _ _ _ h2, h1]
  rfl

/-! ## The connection primitives -/

theorem setConn_get (w : World) (c : Nat) (conn conn1 : Conn) (h : w.conns[c]? = some conn) :
    (w.setConn c conn1).conns[c]? = some conn1 := by
  have hlt : c < w.conns.length := by
    by_contra hge
    rw [List.getElem?_eq_none (by omega)] at h
    cases h
  simp [World.setConn, List.getElem?_set, hlt]

/-- A write on a logged-in session hands the frame to `Write`; it fails, and
closes the connection, exactly when the network makes it fail. -/
theorem wsWrite_loggedIn (w : World) (c k : Nat) (conn : Conn) (d : Frame)
    (h : w.conns[c]? = some conn) (hcl : conn.closed = false) (hcan : w.cancelled k = false) :
    wsWrite w c k d =
      match conn.faults with
      | some e :: fs =>
        (some e, w.setConn c { conn with writes := conn.writes ++ [d], closed := true, faults := fs })
      | none :: fs => (none, w.setConn c { conn with writes := conn.writes ++ [d], faults := fs })
      | [] => (none, w.setConn c { conn with writes := conn.writes ++ [d] }) := by
  simp only [wsWrite, h, hcl, hcan, Bool.false_eq_true, if_false]
  split <;> rfl

/-- A read on a logged-in session takes what the network has next. -/
theorem wsRead_loggedIn (w : World) (c k : Nat) (conn : Conn)
    (h : w.conns[c]? = some conn) (hcl : conn.closed = false) (hcan : w.cancelled k = false) :
    wsRead w c k =
      match conn.inbound with
      | [] => .block w
      | .frame f :: rest => .ret (f, none) (w.setConn c { conn with inbound := rest })
      | .fail e got :: rest =>
        .ret (got, some e) (w.setConn c { conn with inbound := rest, closed := true }) := by
  simp only [wsRead, h, hcl, hcan, Bool.false_eq_true, if_false]
  split <;> rfl

theorem setConn_writes (w : World) (c : Nat) (conn conn1 : Conn) (h : w.conns[c]? = some conn) :
    (w.setConn c conn1).writes c = conn1.writes := by
  simp [World.writes, setConn_get w c conn conn1 h]

theorem setConn_inbound (w : World) (c : Nat) (conn conn1 : Conn) (h : w.conns[c]? = some conn) :
    (w.setConn c conn1).inbound c = conn1.inbound := by
  simp [World.inbound, setConn_get w c conn conn1 h]

theorem setConn_setConn (w : World) (c : Nat) (a b : Conn) :
    (w.setConn c a).setConn c b = w.setConn c b := by
  simp [World.setConn]

/-- What a write does on a connection in any state: the frame is handed to
`Write`, nothing is read and no context is touched; the write succeeds exactly
on an open connection under a live context when the network lets it, and then
the connection stays open. -/
theorem wsWrite_spec (w : World) (c k : Nat) (conn : Conn) (d : Frame)
    (h : w.conns[c]? = some conn) :
    ∃ conn1 : Conn, (wsWrite w c k d).2 = w.setConn c conn1 ∧
      conn1.writes = conn.writes ++ [d] ∧ conn1.inbound = conn.inbound ∧
      ((wsWrite w c k d).1 = none ↔
        conn.closed = false ∧ w.cancelled k = false ∧ ∀ e fs, conn.faults ≠ some e :: fs) ∧
      ((wsWrite w c k d).1 = none → conn1.closed = false) ∧
      ((wsWrite w c k d).1 ≠ none → conn.closed = false → conn1.closed = true) := by
  cases hcl : conn.closed with
  | true =>
    refine ⟨{ conn with writes := conn.writes ++ [d] }, ?_, rfl, rfl, ?_, ?_, ?_⟩ <;>
      simp [wsWrite, h, hcl, World.setConn]
  | false =>
    cases hcan : w.cancelled k with
    | true =>
      refine ⟨{ conn with writes := conn.writes ++ [d], closed := true }, ?_, rfl, rfl, ?_, ?_, ?_⟩ <;>
        simp [wsWrite, h, hcl, hcan, World.setConn]
    | false =>
      rw [wsWrite_loggedIn w c k conn d h hcl hcan]
      rcases hf : conn.faults with _ | ⟨_ | e, fs⟩
      · exact ⟨_, rfl, rfl, rfl, by simp, by simp [hcl], by simp⟩
      · exact ⟨_, rfl, rfl, rfl, by simp, by simp [hcl], by simp⟩
      · exact ⟨_, rfl, rfl, rfl, by simp, by simp, by simp⟩

theorem cancelled_new (ctxs : List Bool) :
    ((ctxs ++ [false]).set ctxs.length true).getD ctxs.length false = true := by
  simp [List.getD, List.getElem?_set]

theorem isOpen_append_closed (conns : List Conn) (b : Conn) (i : Nat)
    (h : (match (conns ++ [b])[i]? with
      | some conn => !conn.closed
      | none => false) = true) (hb : b.closed = true) :
    (match conns[i]? with
      | some conn => !conn.closed
      | none => false) = true := by
  rcases Nat.lt_trichotomy i conns.length with hlt | heq | hgt
  · rw [List.getElem?_append_left hlt] at h
    exact h
  · subst heq
    simp [hb] at h
  · rw [List.getElem?_eq_none (by simp; omega)] at h
    simp at h


/-! ## The properties of the package -/

/-- C1, amended: for every signal kind, every peer and every generic payload
nested less than 10000 deep, decoding into a zero `Signal` the frame that
`writeSignal` builds gives a `Signal` whose fields `Signal`, `Peer` and `Data`
are the encoded ones, and no decoding error; so `WaitSignal`, on a logged-in
session whose next inbound frame is that frame, returns that `Signal`. -/
theorem signal_round_trip (signal peer : String) (data : GoVal) (hg : generic data = true)
    (hd : nesting data < maxNestingDepth) :
    jsonUnmarshalSignal (jsonMarshalSignal ⟨signal, peer, data⟩).1 zeroSignal =
        (⟨signal, peer, data⟩, none) ∧
      ∀ w cli c k conn rest, LoggedIn w cli c k conn →
        conn.inbound = .frame (jsonMarshalSignal ⟨signal, peer, data⟩).1 :: rest →
        WaitSignal w cli =
          .ret (⟨signal, peer, data⟩, none) (w.setConn c { conn with inbound := rest }) := by
  have h := unmarshal_marshal signal peer data zeroSignal hg hd
  refine ⟨h, ?_⟩
  rintro w cli c k conn rest ⟨rfl, hc, hcl, hcan⟩ hin
  simp [WaitSignal, waitAnswer, wsRead_loggedIn w c k conn hc hcl hcan, hin, h]

/-- Witness of `signal_round_trip`: an offer with a session description. -/
theorem signal_round_trip_witness :
    jsonUnmarshalSignal (jsonMarshalSignal ⟨"offer", "bob",
        .map [("sdp", .string "v=0\r\n"), ("type", .string "offer")]⟩).1 zeroSignal =
      (⟨"offer", "bob", .map [("sdp", .string "v=0\r\n"), ("type", .string "offer")]⟩, none) :=
  (signal_round_trip "offer" "bob" (.map [("sdp", .string "v=0\r\n"), ("type", .string "offer")])
    (by decide) (by decide)).1

/-- C1 as stated fails: a payload that is the Go `int` 1 is written as `1` and
decoded as the `float64` 1, which is not the value that was encoded. -/
theorem int_payload_decodes_as_float :
    jsonUnmarshalSignal (jsonMarshalSignal ⟨"offer", "bob", .int 1⟩).1 zeroSignal =
        (⟨"offer", "bob", .float64 ⟨false, 4503599627370496, -52⟩⟩, none) ∧
      (jsonUnmarshalSignal (jsonMarshalSignal ⟨"offer", "bob", .int 1⟩).1 zeroSignal).1.Data ≠
        .int 1 := by
  decide

/-- C2, as the code behaves: when the frame that `WaitSignal` receives on a
logged-in session is not well-formed JSON, `WaitSignal` returns the zero-valued
`Signal` together with a nil error; the error of `json.Unmarshal` is lost. -/
theorem WaitSignal_malformed (w : World) (cli : SignalClient) (c k : Nat) (conn : Conn)
    (f : Frame) (rest : List Recv) (hs : LoggedIn w cli c k conn)
    (hin : conn.inbound = .frame f :: rest) (hbad : parseJSON f = none) :
    WaitSignal w cli = .ret (zeroSignal, none) (w.setConn c { conn with inbound := rest }) := by
  obtain ⟨rfl, hc, hcl, hcan⟩ := hs
  simp [WaitSignal, waitAnswer, wsRead_loggedIn w c k conn hc hcl hcan, hin, jsonUnmarshalSignal,
    hbad]

/-- Witness of `WaitSignal_malformed`: the frame `not json`. -/
theorem WaitSignal_malformed_witness :
    parseJSON "not json".data = none ∧
      WaitSignal (sessionWorld [.frame "not json".data] []) sessionClient =
        .ret (zeroSignal, none) (sessionWorld [] []) :=
  ⟨by decide, WaitSignal_malformed (sessionWorld [.frame "not json".data] []) sessionClient 0 0
    ⟨⟨"ws", "relay:8080", "/signal"⟩, false, [], [.frame "not json".data], []⟩ "not json".data []
    ⟨rfl, rfl, rfl, rfl⟩ rfl (by decide)⟩

/-- C5, as the code behaves: `Close` on a client fresh from `New` panics, and
so does `Close` after a `Connect` that failed at the dial step, which leaves
the client as `New` made it. -/
theorem Close_panics (w : World) (e : Error) (scheme addr : String) (login : GoString) :
    Close w New = .panic ∧
      ∃ w1, Connect { w with dials := .refuse e :: w.dials } New scheme addr login =
          .ret (New, some e) w1 ∧ Close w1 New = .panic :=
  ⟨rfl, _, rfl, rfl⟩

/-- C7, as the code behaves: a `Connect` whose dial and login write succeed
returns a nil error also when the read of the reply frame fails, and
`WriteAnswer` returns a nil error when the payload cannot be serialized, after
writing an empty frame. -/
theorem errors_swallowed (w : World) (cli : SignalClient) (scheme addr : String)
    (login : GoString) (e : Error) (got : Frame) (rest : List Recv) :
    (∃ w1, Connect { w with dials := .accept (.fail e got :: rest) [] :: w.dials } cli
        scheme addr login =
          .ret (⟨some w.conns.length, some w.ctxs.length, some w.ctxs.length⟩, none) w1) ∧
      jsonMarshalSignal ⟨"answer", "bob", .chan⟩ = ([], some .unsupportedType) ∧
      WriteAnswer (sessionWorld [] []) sessionClient "bob" .chan =
        .ret none ((sessionWorld [] []).setConn 0
          ⟨⟨"ws", "relay:8080", "/signal"⟩, false, [[]], [], []⟩) := by
  refine ⟨?_, rfl, by decide⟩
  simp [Connect, withCancel, wsDial, jsonMarshalLogin, wsWrite, World.cancelled, waitAnswer,
    wsRead]

/-- On a client that holds a connection, `WriteOffer` hands exactly one frame
to `Write`, the bytes that `writeSignal` gets from `json.Marshal`.  If the
write fails, nothing is read and the write error is returned with an empty
answer.  If the write succeeds, one read follows and its bytes and error are
returned as they are, with exactly one inbound event consumed; with nothing
inbound the call blocks after the write. -/
theorem WriteOffer_steps (w : World) (cli : SignalClient) (c k : Nat) (conn : Conn)
    (peer : GoString) (offer : GoVal)
    (hc : cli.conn = some c) (hk : cli.ctx = some k) (hconn : w.conns[c]? = some conn) :
    (wsWrite w c k (jsonMarshalSignal ⟨"offer", peer, offer⟩).1).2.writes c =
        conn.writes ++ [(jsonMarshalSignal ⟨"offer", peer, offer⟩).1] ∧
      (wsWrite w c k (jsonMarshalSignal ⟨"offer", peer, offer⟩).1).2.inbound c = conn.inbound ∧
      (∀ e, (wsWrite w c k (jsonMarshalSignal ⟨"offer", peer, offer⟩).1).1 = some e →
        WriteOffer w cli peer offer =
          .ret ([], some e) (wsWrite w c k (jsonMarshalSignal ⟨"offer", peer, offer⟩).1).2) ∧
      ((wsWrite w c k (jsonMarshalSignal ⟨"offer", peer, offer⟩).1).1 = none →
        (∀ f rest, conn.inbound = .frame f :: rest →
          ∃ w2, WriteOffer w cli peer offer = .ret (f, none) w2 ∧
            w2.writes c = conn.writes ++ [(jsonMarshalSignal ⟨"offer", peer, offer⟩).1] ∧
            w2.inbound c = rest) ∧
        (∀ e got rest, conn.inbound = .fail e got :: rest →
          ∃ w2, WriteOffer w cli peer offer = .ret (got, some e) w2 ∧
            w2.writes c = conn.writes ++ [(jsonMarshalSignal ⟨"offer", peer, offer⟩).1] ∧
            w2.inbound c = rest) ∧
        (conn.inbound = [] →
          WriteOffer w cli peer offer =
            .block (wsWrite w c k (jsonMarshalSignal ⟨"offer", peer, offer⟩).1).2)) := by
  obtain ⟨conn1, hw, hwr, hin, hiff, hopen, -⟩ :=
    wsWrite_spec w c k conn (jsonMarshalSignal ⟨"offer", peer, offer⟩).1 hconn
  have hget := setConn_get w c conn conn1 hconn
  refine ⟨by rw [hw, setConn_writes w c conn conn1 hconn, hwr],
    by rw [hw, setConn_inbound w c conn conn1 hconn, hin], ?_, ?_⟩
  · intro e he
    simp [WriteOffer, writeSignal, hc, hk, he]
  · intro hnone
    have hcl := hopen hnone
    have hcan : (w.setConn c conn1).cancelled k = false := (hiff.mp hnone).2.1
    have hread := wsRead_loggedIn (w.setConn c conn1) c k conn1 hget hcl hcan
    refine ⟨?_, ?_, ?_⟩
    · intro f rest hf
      refine ⟨(w.setConn c conn1).setConn c { conn1 with inbound := rest }, ?_, ?_, ?_⟩
      · simp [WriteOffer, writeSignal, hc, hk, hnone, waitAnswer, hw, hread, hin, hf]
      · rw [setConn_writes _ c conn1 _ hget]; exact hwr
      · rw [setConn_inbound _ c conn1 _ hget]
    · intro e got rest hf
      refine ⟨(w.setConn c conn1).setConn c { conn1 with inbound := rest, closed := true },
        ?_, ?_, ?_⟩
      · simp [WriteOffer, writeSignal, hc, hk, hnone, waitAnswer, hw, hread, hin, hf]
      · rw [setConn_writes _ c conn1 _ hget]; exact hwr
      · rw [setConn_inbound _ c conn1 _ hget]
    · intro hf
      simp [WriteOffer, writeSignal, hc, hk, hnone, waitAnswer, hw, hread, hin, hf]

/-- The text of the frame of a signal whose payload `json.Marshal` can encode. -/
theorem jsonMarshalSignal_text (signal : String) (peer : GoString) (data : GoVal)
    (b : List Char) (hb : encodeValue data = .ok b) :
    (jsonMarshalSignal ⟨signal, peer, data⟩).1 =
      "\x7b\"signal\":".data ++ encodeString signal ++ ",\"peer\":".data ++ encodeString peer
        ++ ",\"data\":".data ++ b ++ "\x7d".data := by
  simp [jsonMarshalSignal, hb]

/-- C3 as stated fails.  For a payload that `json.Marshal` cannot encode, here
a channel, the one frame that `WriteOffer` writes is the empty frame, which is
no offer envelope, and the call goes on to read the answer.  For a peer that is
not valid UTF-8, here the one byte 255, the frame written names the peer
U+FFFD, not the peer given. -/
theorem offer_frame_not_envelope :
    (∃ w1, WriteOffer (sessionWorld [.frame "ok".data] []) sessionClient "bob" .chan =
        .ret ("ok".data, none) w1 ∧ w1.writes 0 = [[]] ∧ parseJSON [] = none) ∧
    (∃ w1, WriteOffer (sessionWorld [.frame "ok".data] []) sessionClient ⟨[.byte 255]⟩ .nil =
        .ret ("ok".data, none) w1 ∧
      w1.writes 0 = ["\x7b\"signal\":\"offer\",\"peer\":\"\\ufffd\",\"data\":null\x7d".data]) ∧
    parseJSON "\x7b\"signal\":\"offer\",\"peer\":\"\\ufffd\",\"data\":null\x7d".data =
      some (.obj [("signal".data, .str "offer".data), ("peer".data, .str [Char.ofNat 65533]),
        ("data".data, .null)]) ∧
    GoString.ofChars [Char.ofNat 65533] ≠ ⟨[.byte 255]⟩ :=
  ⟨⟨_, rfl, rfl, rfl⟩, ⟨_, rfl, rfl⟩, by decide, by decide⟩

/-- C3, amended: on a client that holds a connection, for a peer that is valid
UTF-8 and a payload that `json.Marshal` can encode, with JSON text `b`,
`WriteOffer` hands exactly one frame to `Write`: the offer envelope, the text
`{"signal":"offer","peer":<peer>,"data":<b>}`, which for a payload whose text
the embedding can follow is the object with the members `signal`, `peer` and
`data` holding `offer`, the peer and the document of the payload.  If the write
fails, nothing is read and the write error is returned with an empty answer.
If the write succeeds, one read follows and its bytes and error are returned
as they are, with exactly one inbound event consumed; with nothing inbound the
call blocks after the write.  So when the relay answers with the answer
envelope `{"signal":"answer","peer":<peer>,"data":<bp>}` of a payload `p` with
JSON text `bp`, the returned bytes are that frame: as a document its member
`data` is the document of `p`, and for a generic `p` it decodes to the
`Signal` whose `Data` is `p`. -/
theorem WriteOffer_spec (w : World) (cli : SignalClient) (c k : Nat) (conn : Conn)
    (peer : String) (offer : GoVal) (b : List Char) (frame : Frame)
    (hc : cli.conn = some c) (hk : cli.ctx = some k) (hconn : w.conns[c]? = some conn)
    (hb : encodeValue offer = .ok b)
    (hframe : frame = "\x7b\"signal\":\"offer\",\"peer\":".data ++ encodeString peer
      ++ ",\"data\":".data ++ b ++ "\x7d".data) :
    (wsWrite w c k frame).2.writes c = conn.writes ++ [frame] ∧
      (wsWrite w c k frame).2.inbound c = conn.inbound ∧
      (plain offer = true → nesting offer < maxNestingDepth →
        parseJSON frame = some (.obj [("signal".data, .str "offer".data),
          ("peer".data, .str peer.data), ("data".data, docOf offer)])) ∧
      (∀ e, (wsWrite w c k frame).1 = some e →
        WriteOffer w cli peer offer = .ret ([], some e) (wsWrite w c k frame).2) ∧
      ((wsWrite w c k frame).1 = none →
        (∀ f rest, conn.inbound = .frame f :: rest →
          ∃ w2, WriteOffer w cli peer offer = .ret (f, none) w2 ∧
            w2.writes c = conn.writes ++ [frame] ∧ w2.inbound c = rest) ∧
        (∀ e got rest, conn.inbound = .fail e got :: rest →
          ∃ w2, WriteOffer w cli peer offer = .ret (got, some e) w2 ∧
            w2.writes c = conn.writes ++ [frame] ∧ w2.inbound c = rest) ∧
        (conn.inbound = [] → WriteOffer w cli peer offer = .block (wsWrite w c k frame).2) ∧
        (∀ p bp answer rest, encodeValue p = .ok bp →
          answer = "\x7b\"signal\":\"answer\",\"peer\":".data ++ encodeString peer
            ++ ",\"data\":".data ++ bp ++ "\x7d".data →
          conn.inbound = .frame answer :: rest →
          (∃ w2, WriteOffer w cli peer offer = .ret (answer, none) w2) ∧
          (plain p = true → nesting p < maxNestingDepth →
            parseJSON answer = some (.obj [("signal".data, .str "answer".data),
              ("peer".data, .str peer.data), ("data".data, docOf p)])) ∧
          (generic p = true → nesting p < maxNestingDepth →
            jsonUnmarshalSignal answer zeroSignal = (⟨"answer", peer, p⟩, none)))) := by
  have ho : (jsonMarshalSignal ⟨"offer", peer, offer⟩).1 = frame := by
    rw [hframe, jsonMarshalSignal_text "offer" peer offer b hb]
    simp [encodeString_ofString, escapeChars, escapeChar]
  obtain ⟨h1, h2, h3, h4⟩ := WriteOffer_steps w cli c k conn peer offer hc hk hconn
  rw [ho] at h1 h2 h3 h4
  refine ⟨h1, h2, fun hp hd => ?_, h3, fun hnone => ?_⟩
  · rw [← ho]; exact parseJSON_marshalSignal "offer" peer offer hp hd
  · obtain ⟨h5, h6, h7⟩ := h4 hnone
    refine ⟨h5, h6, h7, fun p bp answer rest hbp hans hin => ?_⟩
    have ha : (jsonMarshalSignal ⟨"answer", peer, p⟩).1 = answer := by
      rw [hans, jsonMarshalSignal_text "answer" peer p bp hbp]
      simp [encodeString_ofString, escapeChars, escapeChar]
    obtain ⟨w2, hw2, -, -⟩ := h5 answer rest hin
    refine ⟨⟨w2, hw2⟩, fun hp hd => ?_, fun hg hd => ?_⟩
    · rw [← ha]; exact parseJSON_marshalSignal "answer" peer p hp hd
    · rw [← ha]; exact unmarshal_marshal "answer" peer p zeroSignal hg hd

/-- Witness of `WriteOffer_spec`: a session whose relay answers an offer. -/
theorem WriteOffer_spec_witness :
    ∃ w2, WriteOffer
        (sessionWorld [.frame "\x7b\"signal\":\"answer\",\"peer\":\"alice\"\x7d".data] [])
        sessionClient "bob" (.string "sdp") =
          .ret ("\x7b\"signal\":\"answer\",\"peer\":\"alice\"\x7d".data, none) w2 ∧
      w2.writes 0 = [] ++ ["\x7b\"signal\":\"offer\",\"peer\":\"bob\",\"data\":\"sdp\"\x7d".data] ∧
      w2.inbound 0 = [] :=
  ((WriteOffer_spec
    (sessionWorld [.frame "\x7b\"signal\":\"answer\",\"peer\":\"alice\"\x7d".data] [])
    sessionClient 0 0
    ⟨⟨"ws", "relay:8080", "/signal"⟩, false, [],
      [.frame "\x7b\"signal\":\"answer\",\"peer\":\"alice\"\x7d".data], []⟩
    "bob" (.string "sdp") "\"sdp\"".data
    "\x7b\"signal\":\"offer\",\"peer\":\"bob\",\"data\":\"sdp\"\x7d".data
    rfl rfl rfl rfl rfl).2.2.2.2 (by decide)).1 _ [] rfl

/-- A `Connect` that returns a non-nil error leaves open no connection that it
opened, and it has cancelled the context it created.  If the dial failed, the
call stores nothing in the client and creates no connection.  If the dial
succeeded, the failure is that of the login write, the connection that was
opened is closed, and the client holds it. -/
theorem Connect_error (w : World) (cli cli1 : SignalClient) (scheme addr : String)
    (login : GoString) (e : Error) (w1 : World)
    (h : Connect w cli scheme addr login = .ret (cli1, some e) w1) :
    (∀ i, w1.isOpen i = true → w.isOpen i = true) ∧
      w1.cancelled w.ctxs.length = true ∧
      ((∀ inb fs ds, w.dials ≠ .accept inb fs :: ds) → cli1 = cli ∧ w1.conns = w.conns) ∧
      (∀ inb fs ds, w.dials = .accept inb fs :: ds →
        cli1 = ⟨some w.conns.length, some w.ctxs.length, some w.ctxs.length⟩ ∧
          w1.conns.length = w.conns.length + 1 ∧ w1.isOpen w.conns.length = false ∧
          ∃ fs1, fs = some e :: fs1) := by
  rcases hd : w.dials with _ | ⟨_ | ⟨inb, fs⟩, ds⟩
  · simp only [Connect, withCancel, wsDial, hd, Res.ret.injEq, Prod.mk.injEq] at h
    obtain ⟨⟨rfl, -⟩, rfl⟩ := h
    refine ⟨fun i hi => hi, cancelled_new _, fun _ => ⟨rfl, rfl⟩, ?_⟩
    intro inb fs ds hh; cases hh
  · simp only [Connect, withCancel, wsDial, hd, Res.ret.injEq, Prod.mk.injEq] at h
    obtain ⟨⟨rfl, -⟩, rfl⟩ := h
    refine ⟨fun i hi => hi, cancelled_new _, fun _ => ⟨rfl, rfl⟩, ?_⟩
    intro inb fs ds hh; cases hh
  · rcases fs with _ | ⟨_ | e1, fs1⟩
    · simp [Connect, withCancel, wsDial, hd, jsonMarshalLogin, wsWrite, World.cancelled,
        waitAnswer, wsRead] at h
      split at h <;> simp at h
    · simp [Connect, withCancel, wsDial, hd, jsonMarshalLogin, wsWrite, World.cancelled,
        waitAnswer, wsRead] at h
      split at h <;> simp at h
    · simp [Connect, withCancel, wsDial, hd, jsonMarshalLogin, wsWrite, World.cancelled,
        Close, wsClose, cancelCtx] at h
      obtain ⟨⟨rfl, rfl⟩, rfl⟩ := h
      refine ⟨fun i hi => ?_, ?_, ?_, ?_⟩
      · simp only [World.isOpen] at hi ⊢
        exact isOpen_append_closed _ _ i hi rfl
      · simp [World.cancelled, List.getD, List.getElem?_set]
      · intro hno; exact absurd rfl (hno inb (some e1 :: fs1) ds)
      · intro inb2 fs2 ds2 hh
        cases hh
        refine ⟨rfl, by simp, ?_, _, rfl⟩
        simp [World.isOpen, List.getElem?_set]

/-- C4: a `Connect`, called on a client that holds no connection, that returns
a non-nil error leaves no connection open: every connection that is open when
it returns was open before the call, the connection that the client holds, if
it holds one, is closed, and the context that the call created is cancelled.
If the dial failed, no connection is stored in the client and none was
created.  If the dial succeeded, the failure is that of the login write
(serializing a `Login` cannot fail), and the connection that was opened, which
the client holds, is closed. -/
theorem Connect_failure (w : World) (cli cli1 : SignalClient) (scheme addr : String)
    (login : GoString) (e : Error) (w1 : World) (hnew : cli.conn = none)
    (h : Connect w cli scheme addr login = .ret (cli1, some e) w1) :
    (∀ i, w1.isOpen i = true → w.isOpen i = true) ∧
      (∀ c, cli1.conn = some c → w1.isOpen c = false) ∧
      w1.cancelled w.ctxs.length = true ∧
      ((∀ inb fs ds, w.dials ≠ .accept inb fs :: ds) →
        cli1.conn = none ∧ w1.conns = w.conns ∧ w1.cancelled w.ctxs.length = true) ∧
      (∀ inb fs ds, w.dials = .accept inb fs :: ds →
        (∃ fs1, fs = some e :: fs1) ∧ cli1.conn = some w.conns.length ∧
          w1.conns.length = w.conns.length + 1 ∧ w1.isOpen w.conns.length = false ∧
          w1.cancelled w.ctxs.length = true) := by
  obtain ⟨h1, h2, h3, h4⟩ := Connect_error w cli cli1 scheme addr login e w1 h
  refine ⟨h1, fun c hc => ?_, h2, fun hno => ?_, fun inb fs ds hd => ?_⟩
  · rcases hd : w.dials with _ | ⟨_ | ⟨inb, fs⟩, ds⟩
    · have := (h3 (by rw [hd]; intro inb fs ds hh; cases hh)).1
      rw [this, hnew] at hc; cases hc
    · have := (h3 (by rw [hd]; intro inb fs ds hh; cases hh)).1
      rw [this, hnew] at hc; cases hc
    · obtain ⟨hcli, -, hcl, -⟩ := h4 inb fs ds hd
      rw [hcli] at hc
      cases hc
      exact hcl
  · obtain ⟨hcli, hconns⟩ := h3 hno
    exact ⟨by rw [hcli, hnew], hconns, h2⟩
  · obtain ⟨hcli, hlen, hcl, hfs⟩ := h4 inb fs ds hd
    exact ⟨hfs, by rw [hcli], hlen, hcl, h2⟩

/-- Witness of `Connect_failure`: a login write that fails on a fresh client. -/
theorem Connect_failure_witness :
    Connect ⟨[], [], [.accept [] [some .write]]⟩ New "ws" "relay:8080" "alice" =
        .ret (sessionClient, some .write)
          ⟨[⟨⟨"ws", "relay:8080", "/signal"⟩, true, [(jsonMarshalLogin ⟨"login", "alice"⟩).1],
            [], []⟩], [true], []⟩ ∧
      ∀ c, sessionClient.conn = some c →
        (⟨[⟨⟨"ws", "relay:8080", "/signal"⟩, true, [(jsonMarshalLogin ⟨"login", "alice"⟩).1],
          [], []⟩], [true], []⟩ : World).isOpen c = false :=
  ⟨by decide,
    (Connect_failure ⟨[], [], [.accept [] [some .write]]⟩ New sessionClient "ws" "relay:8080"
      "alice" .write
      ⟨[⟨⟨"ws", "relay:8080", "/signal"⟩, true, [(jsonMarshalLogin ⟨"login", "alice"⟩).1],
        [], []⟩], [true], []⟩ rfl (by decide)).2.1⟩

/-- C6 as stated fails: a write that fails in `WriteAnswer` on a logged-in
session is returned to the caller, and the context of the session is not
cancelled when the call returns. -/
theorem WriteAnswer_failure_not_cancelled :
    ∃ w1, WriteAnswer (sessionWorld [] [some .write]) sessionClient "bob" .nil =
        .ret (some .write) w1 ∧ w1.cancelled 0 = false :=
  ⟨_, rfl, rfl⟩

/-- C6, amended: on a logged-in session, a write that the network makes fail
in `WriteOffer`, `WriteAnswer` or `WriteCandidate`, and a read that it makes
fail in `WaitSignal` or in `WriteOffer`, is returned to the caller as the
error of the call; the websocket library has closed the connection, and the
context of the session is not cancelled: the package cancels it only in
`Close`. -/
theorem transport_failure (w : World) (cli : SignalClient) (c k : Nat) (conn : Conn)
    (peer : GoString) (data : GoVal) (hs : LoggedIn w cli c k conn) :
    (∀ e fs, conn.faults = some e :: fs →
      (∃ w1, WriteOffer w cli peer data = .ret ([], some e) w1 ∧
        w1.isOpen c = false ∧ w1.cancelled k = false) ∧
      (∃ w1, WriteAnswer w cli peer data = .ret (some e) w1 ∧
        w1.isOpen c = false ∧ w1.cancelled k = false) ∧
      (∃ w1, WriteCandidate w cli peer data = .ret (some e) w1 ∧
        w1.isOpen c = false ∧ w1.cancelled k = false)) ∧
    (∀ e got rest, conn.inbound = .fail e got :: rest →
      (∃ w1, WaitSignal w cli = .ret (zeroSignal, some e) w1 ∧
        w1.isOpen c = false ∧ w1.cancelled k = false) ∧
      ((∀ e1 fs, conn.faults ≠ some e1 :: fs) →
        ∃ w1, WriteOffer w cli peer data = .ret (got, some e) w1 ∧
          w1.isOpen c = false ∧ w1.cancelled k = false)) := by
  obtain ⟨rfl, hc, hcl, hcan⟩ := hs
  have hopen : ∀ conn1 : Conn, conn1.closed = true → (w.setConn c conn1).isOpen c = false := by
    intro conn1 h1
    simp [World.isOpen, setConn_get w c conn conn1 hc, h1]
  refine ⟨fun e fs hf => ?_, fun e got rest hin => ⟨?_, fun hok => ?_⟩⟩
  · have hw := fun d => wsWrite_loggedIn w c k conn d hc hcl hcan
    simp only [hf] at hw
    have hres : ∀ d, ∃ w1, wsWrite w c k d = (some e, w1) ∧ w1.isOpen c = false ∧
        w1.cancelled k = false :=
      fun d => ⟨_, hw d, hopen _ rfl, hcan⟩
    obtain ⟨w1, h1, ho1, hc1⟩ := hres (jsonMarshalSignal ⟨"offer", peer, data⟩).1
    obtain ⟨w2, h2, ho2, hc2⟩ := hres (jsonMarshalSignal ⟨"answer", peer, data⟩).1
    obtain ⟨w3, h3, ho3, hc3⟩ := hres (jsonMarshalSignal ⟨"candidate", peer, data⟩).1
    refine ⟨⟨w1, ?_, ho1, hc1⟩, ⟨w2, ?_, ho2, hc2⟩, ⟨w3, ?_, ho3, hc3⟩⟩
    · simp [WriteOffer, writeSignal, h1]
    · simp [WriteAnswer, writeSignal, h2]
    · simp [WriteCandidate, writeSignal, h3]
  · refine ⟨_, ?_, hopen { conn with inbound := rest, closed := true } rfl, hcan⟩
    simp [WaitSignal, waitAnswer, wsRead_loggedIn w c k conn hc hcl hcan, hin]
  · obtain ⟨conn1, hw, hwr, hin1, hiff, hcl1, -⟩ :=
      wsWrite_spec w c k conn (jsonMarshalSignal ⟨"offer", peer, data⟩).1 hc
    have hnone := hiff.mpr ⟨hcl, hcan, hok⟩
    have hget := setConn_get w c conn conn1 hc
    have hread := wsRead_loggedIn (w.setConn c conn1) c k conn1 hget (hcl1 hnone) hcan
    refine ⟨(w.setConn c conn1).setConn c { conn1 with inbound := rest, closed := true }, ?_,
      ?_, hcan⟩
    · simp [WriteOffer, writeSignal, hnone, waitAnswer, hw, hread, hin1, hin]
    · rw [setConn_setConn]
      exact hopen _ rfl

/-- Witness of `transport_failure`: a session whose next write fails. -/
theorem transport_failure_witness :
    ∃ w1, WriteAnswer (sessionWorld [] [some .write]) sessionClient "bob" (.string "sdp") =
        .ret (some .write) w1 ∧ w1.isOpen 0 = false ∧ w1.cancelled 0 = false :=
  ((transport_failure (sessionWorld [] [some .write]) sessionClient 0 0
    ⟨⟨"ws", "relay:8080", "/signal"⟩, false, [], [], [some .write]⟩ "bob" (.string "sdp")
    ⟨rfl, rfl, rfl, rfl⟩).1 .write [] rfl).2.1

theorem setConn_writes_eq (w : World) (c : Nat) (conn conn1 : Conn) (h : w.conns[c]? = some conn)
    (hw : conn1.writes = conn.writes) (i : Nat) : (w.setConn c conn1).writes i = w.writes i := by
  by_cases hi : i = c
  · subst hi
    rw [setConn_writes w i conn conn1 h, hw]
    simp [World.writes, h]
  · simp [World.writes, World.setConn, List.getElem?_set_ne (Ne.symm hi)]

/-- A read hands no frame to `Write`. -/
theorem wsRead_writes (w : World) (c k : Nat) (w1 : World)
    (h : (wsRead w c k).world = some w1) (i : Nat) : w1.writes i = w.writes i := by
  unfold wsRead at h
  cases hc : w.conns[c]? with
  | none =>
    simp [hc, Res.world] at h
    rw [← h]
  | some conn =>
    simp only [hc] at h
    split_ifs at h with h1 h2
    · simp [Res.world] at h; rw [← h]
    · simp only [Res.world, Option.some.injEq] at h
      rw [← h]
      exact setConn_writes_eq w c conn { conn with closed := true } hc rfl i
    · rcases hin : conn.inbound with _ | ⟨f | ⟨e, got⟩, rest⟩ <;>
        simp only [hin, Res.world, Option.some.injEq] at h <;> rw [← h]
      · exact setConn_writes_eq w c conn { conn with inbound := rest } hc rfl i
      · exact setConn_writes_eq w c conn { conn with inbound := rest, closed := true } hc rfl i

/-- The frame of a signal is never the frame of a login. -/
theorem marshalSignal_ne_login (kind : String) (peer id : GoString) (data : GoVal)
    (hk : kind = "offer" ∨ kind = "answer" ∨ kind = "candidate") :
    (jsonMarshalSignal ⟨kind, peer, data⟩).1 ≠ (jsonMarshalLogin ⟨"login", id⟩).1 := by
  cases hb : encodeValue data with
  | error e => simp [jsonMarshalSignal, jsonMarshalLogin, hb]
  | ok b =>
    rcases hk with rfl | rfl | rfl <;>
      simp [jsonMarshalSignal, jsonMarshalLogin, hb, encodeString_ofString, escapeChars,
        escapeChar]

/-- Whatever a call of `writeSignal` and a read after it do, the connection
has got one more frame handed to `Write`. -/
theorem writeSignal_writes (w : World) (cli : SignalClient) (c k : Nat) (conn : Conn)
    (signal peer : String) (data : GoVal)
    (hc : cli.conn = some c) (hk : cli.ctx = some k) (hconn : w.conns[c]? = some conn) :
    (∃ e w1, writeSignal w cli signal peer data = .ret e w1 ∧
      w1.writes c = conn.writes ++ [(jsonMarshalSignal ⟨signal, peer, data⟩).1]) ∧
    (signal = "offer" → ∃ w1, (WriteOffer w cli peer data).world = some w1 ∧
      w1.writes c = conn.writes ++ [(jsonMarshalSignal ⟨signal, peer, data⟩).1]) := by
  obtain ⟨conn1, hw, hwr, -, -, -, -⟩ :=
    wsWrite_spec w c k conn (jsonMarshalSignal ⟨signal, peer, data⟩).1 hconn
  have hws : (wsWrite w c k (jsonMarshalSignal ⟨signal, peer, data⟩).1).2.writes c =
      conn.writes ++ [(jsonMarshalSignal ⟨signal, peer, data⟩).1] := by
    rw [hw, setConn_writes w c conn conn1 hconn, hwr]
  refine ⟨⟨(wsWrite w c k (jsonMarshalSignal ⟨signal, peer, data⟩).1).1,
    (wsWrite w c k (jsonMarshalSignal ⟨signal, peer, data⟩).1).2,
    by simp [writeSignal, hc, hk], hws⟩, ?_⟩
  rintro rfl
  cases he : (wsWrite w c k (jsonMarshalSignal ⟨"offer", peer, data⟩).1).1 with
  | some e =>
    exact ⟨_, by simp [WriteOffer, writeSignal, hc, hk, he, Res.world], hws⟩
  | none =>
    have hwo : WriteOffer w cli peer data =
        wsRead (wsWrite w c k (jsonMarshalSignal ⟨"offer", peer, data⟩).1).2 c k := by
      simp [WriteOffer, writeSignal, hc, hk, he, waitAnswer]
    have : ∃ w1, (wsRead (wsWrite w c k (jsonMarshalSignal ⟨"offer", peer, data⟩).1).2 c k).world
        = some w1 := by
      cases hr : wsRead (wsWrite w c k (jsonMarshalSignal ⟨"offer", peer, data⟩).1).2 c k with
      | ret a w1 => exact ⟨w1, rfl⟩
      | block w1 => exact ⟨w1, rfl⟩
      | panic =>
        exfalso
        unfold wsRead at hr
        split at hr
        · cases hr
        · split_ifs at hr
          split at hr <;> cases hr
    obtain ⟨w1, h1⟩ := this
    exact ⟨w1, by rw [hwo, h1], by rw [wsRead_writes _ c k w1 h1 c, hws]⟩

/-- C8, amended: on a client that holds a connection and for a payload that
`json.Marshal` can encode, with JSON text `b`, each of `WriteOffer`,
`WriteAnswer` and `WriteCandidate` hands exactly one frame to `Write`, the
text of an object with the members `signal`, `peer` and `data` in which
`signal` is `offer`, `answer` and `candidate`, `peer` is the peer as a JSON
string and `data` is `b`.  When the embedding can follow the text of the
payload, the frame is, as a document, the object with exactly these three
members whose `data` is the document of the payload. -/
theorem signal_frame (w : World) (cli : SignalClient) (c k : Nat) (conn : Conn)
    (peer : String) (data : GoVal) (b : List Char)
    (hc : cli.conn = some c) (hk : cli.ctx = some k) (hconn : w.conns[c]? = some conn)
    (hb : encodeValue data = .ok b) :
    (∃ w1, (WriteOffer w cli peer data).world = some w1 ∧ w1.writes c = conn.writes ++
      ["\x7b\"signal\":\"offer\",\"peer\":".data ++ encodeString peer ++ ",\"data\":".data
        ++ b ++ "\x7d".data]) ∧
    (∃ w1, (WriteAnswer w cli peer data).world = some w1 ∧ w1.writes c = conn.writes ++
      ["\x7b\"signal\":\"answer\",\"peer\":".data ++ encodeString peer ++ ",\"data\":".data
        ++ b ++ "\x7d".data]) ∧
    (∃ w1, (WriteCandidate w cli peer data).world = some w1 ∧ w1.writes c = conn.writes ++
      ["\x7b\"signal\":\"candidate\",\"peer\":".data ++ encodeString peer ++ ",\"data\":".data
        ++ b ++ "\x7d".data]) ∧
    (plain data = true → nesting data < maxNestingDepth →
      parseJSON ("\x7b\"signal\":\"offer\",\"peer\":".data ++ encodeString peer
          ++ ",\"data\":".data ++ b ++ "\x7d".data) =
        some (.obj [("signal".data, .str "offer".data), ("peer".data, .str peer.data),
          ("data".data, docOf data)]) ∧
      parseJSON ("\x7b\"signal\":\"answer\",\"peer\":".data ++ encodeString peer
          ++ ",\"data\":".data ++ b ++ "\x7d".data) =
        some (.obj [("signal".data, .str "answer".data), ("peer".data, .str peer.data),
          ("data".data, docOf data)]) ∧
      parseJSON ("\x7b\"signal\":\"candidate\",\"peer\":".data ++ encodeString peer
          ++ ",\"data\":".data ++ b ++ "\x7d".data) =
        some (.obj [("signal".data, .str "candidate".data), ("peer".data, .str peer.data),
          ("data".data, docOf data)])) := by
  have ho : (jsonMarshalSignal ⟨"offer", peer, data⟩).1 =
      "\x7b\"signal\":\"offer\",\"peer\":".data ++ encodeString peer ++ ",\"data\":".data
        ++ b ++ "\x7d".data := by
    simp [jsonMarshalSignal, hb, encodeString_ofString, escapeChars, escapeChar]
  have ha : (jsonMarshalSignal ⟨"answer", peer, data⟩).1 =
      "\x7b\"signal\":\"answer\",\"peer\":".data ++ encodeString peer ++ ",\"data\":".data
        ++ b ++ "\x7d".data := by
    simp [jsonMarshalSignal, hb, encodeString_ofString, escapeChars, escapeChar]
  have hcd : (jsonMarshalSignal ⟨"candidate", peer, data⟩).1 =
      "\x7b\"signal\":\"candidate\",\"peer\":".data ++ encodeString peer ++ ",\"data\":".data
        ++ b ++ "\x7d".data := by
    simp [jsonMarshalSignal, hb, encodeString_ofString, escapeChars, escapeChar]
  refine ⟨?_, ?_, ?_, fun hp hd => ⟨?_, ?_, ?_⟩⟩
  · rw [← ho]
    exact (writeSignal_writes w cli c k conn "offer" peer data hc hk hconn).2 rfl
  · obtain ⟨e, w1, h1, h2⟩ := (writeSignal_writes w cli c k conn "answer" peer data hc hk hconn).1
    exact ⟨w1, by simp [WriteAnswer, h1, Res.world], by rw [h2, ha]⟩
  · obtain ⟨e, w1, h1, h2⟩ :=
      (writeSignal_writes w cli c k conn "candidate" peer data hc hk hconn).1
    exact ⟨w1, by simp [WriteCandidate, h1, Res.world], by rw [h2, hcd]⟩
  · rw [← ho]; exact parseJSON_marshalSignal "offer" peer data hp hd
  · rw [← ha]; exact parseJSON_marshalSignal "answer" peer data hp hd
  · rw [← hcd]; exact parseJSON_marshalSignal "candidate" peer data hp hd

/-- Witness of `signal_frame`: an answer whose payload is the number 7. -/
theorem signal_frame_witness :
    ∃ w1, (WriteAnswer (sessionWorld [] []) sessionClient "bob" (.int 7)).world = some w1 ∧
      w1.writes 0 = [] ++
        ["\x7b\"signal\":\"answer\",\"peer\":".data ++ encodeString "bob" ++ ",\"data\":".data
          ++ "7".data ++ "\x7d".data] :=
  (signal_frame (sessionWorld [] []) sessionClient 0 0
    ⟨⟨"ws", "relay:8080", "/signal"⟩, false, [], [], []⟩ "bob" (.int 7) "7".data
    rfl rfl rfl rfl).2.1

/-- C8 as stated fails: for a payload that `json.Marshal` cannot encode, here a
channel, the frame that `WriteAnswer` writes is empty, which is not a JSON
object. -/
theorem unencodable_payload_empty_frame :
    ∃ w1, WriteAnswer (sessionWorld [] []) sessionClient "bob" .chan = .ret none w1 ∧
      w1.writes 0 = [[]] ∧ parseJSON [] = none :=
  ⟨_, rfl, rfl, rfl⟩

/-- C9 as stated fails: for an identity that is not valid UTF-8, here the one
byte 255, the login frame that `Connect` writes carries the escape of U+FFFD,
and the member `login` of the frame is the character U+FFFD, which is not the
identity that the caller gave. -/
theorem login_identity_replaced :
    (∃ w1, Connect ⟨[], [], [.accept [.frame "ok".data] []]⟩ New "ws" "relay:8080"
        ⟨[.byte 255]⟩ = .ret (sessionClient, none) w1 ∧
      w1.writes 0 = ["\x7b\"signal\":\"login\",\"login\":\"\\ufffd\"\x7d".data]) ∧
    parseJSON "\x7b\"signal\":\"login\",\"login\":\"\\ufffd\"\x7d".data =
      some (.obj [("signal".data, .str "login".data),
        ("login".data, .str [Char.ofNat 65533])]) ∧
    GoString.ofChars [Char.ofNat 65533] ≠ ⟨[.byte 255]⟩ :=
  ⟨⟨_, rfl, rfl⟩, by decide, by decide⟩

/-- C9, amended: a `Connect` whose dial succeeds hands exactly one frame to
`Write` on the new connection, dialled at the path `/signal` of the given
scheme and address: the frame of the login, which is the text
`{"signal":"login","login":<identity>}` with the identity as a JSON string,
and which is, as a document, the object with the two members `signal`, the
string `login`, and `login`, the characters of the identity with U+FFFD in
place of every byte that is not valid UTF-8: for an identity that is valid
UTF-8, the identity as the caller gave it.  No other operation writes such a
frame: the frame of `WriteOffer`, `WriteAnswer` and `WriteCandidate` is never
the frame of a login, and `WaitSignal` and `Close` hand no frame to `Write`. -/
theorem login_frame (w : World) (cli : SignalClient) (scheme addr : String)
    (login : GoString) (inb : List Recv) (fs : List (Option Error)) (ds : List DialOutcome)
    (hd : w.dials = .accept inb fs :: ds) :
    (∃ w1 conn, (Connect w cli scheme addr login).world = some w1 ∧
      w1.conns[w.conns.length]? = some conn ∧ conn.url = ⟨scheme, addr, "/signal"⟩ ∧
      conn.writes = [(jsonMarshalLogin ⟨"login", login⟩).1]) ∧
    (jsonMarshalLogin ⟨"login", login⟩).1 =
      "\x7b\"signal\":\"login\",\"login\":".data ++ encodeString login ++ "\x7d".data ∧
    parseJSON (jsonMarshalLogin ⟨"login", login⟩).1 =
      some (.obj [("signal".data, .str "login".data), ("login".data, .str login.toRunes)]) ∧
    (∀ s : String, login = s →
      parseJSON (jsonMarshalLogin ⟨"login", login⟩).1 =
        some (.obj [("signal".data, .str "login".data), ("login".data, .str s.data)])) ∧
    (∀ peer id data, (jsonMarshalSignal ⟨"offer", peer, data⟩).1 ≠
        (jsonMarshalLogin ⟨"login", id⟩).1 ∧
      (jsonMarshalSignal ⟨"answer", peer, data⟩).1 ≠ (jsonMarshalLogin ⟨"login", id⟩).1 ∧
      (jsonMarshalSignal ⟨"candidate", peer, data⟩).1 ≠ (jsonMarshalLogin ⟨"login", id⟩).1) ∧
    (∀ w2 cli2 w3 i, ((WaitSignal w2 cli2).world = some w3 → w3.writes i = w2.writes i) ∧
      ((Close w2 cli2).world = some w3 → w3.writes i = w2.writes i)) := by
  refine ⟨?_, ?_, parseJSON_marshalLogin login, ?_, fun peer id data => ⟨?_, ?_, ?_⟩,
    fun w2 cli2 w3 i => ⟨?_, ?_⟩⟩
  · rcases fs with _ | ⟨_ | e1, fs1⟩
    · rcases inb with _ | ⟨f | ⟨e, got⟩, rest⟩ <;>
        simp [Connect, withCancel, wsDial, hd, jsonMarshalLogin, wsWrite, World.cancelled,
          waitAnswer, wsRead, Res.world]
    · rcases inb with _ | ⟨f | ⟨e, got⟩, rest⟩ <;>
        simp [Connect, withCancel, wsDial, hd, jsonMarshalLogin, wsWrite, World.cancelled,
          waitAnswer, wsRead, Res.world]
    · simp [Connect, withCancel, wsDial, hd, jsonMarshalLogin, wsWrite, World.cancelled,
        Close, wsClose, cancelCtx, Res.world]
  · simp [jsonMarshalLogin, encodeString_ofString, escapeChars, escapeChar]
  · rintro s rfl
    rw [parseJSON_marshalLogin, toRunes_ofString]
  · exact marshalSignal_ne_login _ _ _ _ (Or.inl rfl)
  · exact marshalSignal_ne_login _ _ _ _ (Or.inr (Or.inl rfl))
  · exact marshalSignal_ne_login _ _ _ _ (Or.inr (Or.inr rfl))
  · intro h
    unfold WaitSignal waitAnswer at h
    rcases hc : cli2.conn with _ | c <;> rcases hk : cli2.ctx with _ | k <;>
      simp only [hc, hk, Res.world] at h
    all_goals try (cases h)
    cases hr : wsRead w2 c k with
    | panic => simp [hr] at h
    | block w4 =>
      simp only [hr, Option.some.injEq] at h
      subst h
      exact wsRead_writes w2 c k w4 (by rw [hr]; rfl) i
    | ret a w4 =>
      obtain ⟨m, err⟩ := a
      have := wsRead_writes w2 c k w4 (by rw [hr]; rfl) i
      cases err <;> simp only [hr, Option.some.injEq] at h <;> subst h <;> exact this
  · intro h
    unfold Close at h
    rcases hc : cli2.conn with _ | c <;> rcases hk : cli2.cancel with _ | k <;>
      simp only [hc, hk, Res.world] at h
    all_goals try (cases h)
    cases hcn : w2.conns[c]? with
    | none => simp [wsClose, hcn, cancelCtx, World.writes]
    | some conn =>
      have := setConn_writes_eq w2 c conn { conn with closed := true } hcn rfl i
      simpa [wsClose, hcn, cancelCtx, World.writes, World.setConn] using this

/-- Witness of `login_frame`: the login of `alice`. -/
theorem login_frame_witness :
    (jsonMarshalLogin ⟨"login", "alice"⟩).1 =
        "\x7b\"signal\":\"login\",\"login\":".data ++ encodeString "alice" ++ "\x7d".data ∧
      parseJSON (jsonMarshalLogin ⟨"login", "alice"⟩).1 =
        some (.obj [("signal".data, .str "login".data), ("login".data, .str "alice".data)]) :=
  ⟨(login_frame ⟨[], [], [.accept [.frame "ok".data] []]⟩ New "ws" "relay:8080" "alice"
      [.frame "ok".data] [] [] rfl).2.1,
    (login_frame ⟨[], [], [.accept [.frame "ok".data] []]⟩ New "ws" "relay:8080" "alice"
      [.frame "ok".data] [] [] rfl).2.2.2.1 "alice" rfl⟩

/-- On a logged-in session whose next inbound event is a frame, `WaitSignal`
returns what the frame decodes to, with a nil error. -/
theorem WaitSignal_frame (w : World) (cli : SignalClient) (c k : Nat) (conn : Conn)
    (f : Frame) (rest : List Recv) (hs : LoggedIn w cli c k conn)
    (hin : conn.inbound = .frame f :: rest) :
    WaitSignal w cli = .ret ((jsonUnmarshalSignal f zeroSignal).1, none)
      (w.setConn c { conn with inbound := rest }) := by
  obtain ⟨rfl, hc, hcl, hcan⟩ := hs
  simp [WaitSignal, waitAnswer, wsRead_loggedIn w c k conn hc hcl hcan, hin]

/-- On a logged-in session whose next write succeeds and whose next inbound
event is a frame, `WriteOffer` returns the bytes of the frame. -/
theorem WriteOffer_frame (w : World) (cli : SignalClient) (c k : Nat) (conn : Conn)
    (peer : GoString) (offer : GoVal) (f : Frame) (rest : List Recv)
    (hs : LoggedIn w cli c k conn) (hok : ∀ e fs, conn.faults ≠ some e :: fs)
    (hin : conn.inbound = .frame f :: rest) :
    ∃ w2, WriteOffer w cli peer offer = .ret (f, none) w2 ∧ w2.inbound c = rest := by
  obtain ⟨rfl, hc, hcl, hcan⟩ := hs
  obtain ⟨conn1, hw, -, hin1, hiff, hcl1, -⟩ :=
    wsWrite_spec w c k conn (jsonMarshalSignal ⟨"offer", peer, offer⟩).1 hc
  have hnone := hiff.mpr ⟨hcl, hcan, hok⟩
  have hget := setConn_get w c conn conn1 hc
  have hread := wsRead_loggedIn (w.setConn c conn1) c k conn1 hget (hcl1 hnone) hcan
  refine ⟨(w.setConn c conn1).setConn c { conn1 with inbound := rest }, ?_, ?_⟩
  · simp [WriteOffer, writeSignal, hnone, waitAnswer, hw, hread, hin1, hin]
  · rw [setConn_inbound _ c conn1 _ hget]

/-- C10: when the dial and the login write of `Connect` succeed and the relay
then delivers the frames `f1`, then what is in `rest`, `Connect` reads `f1`,
drops it and returns a nil error: the world it leaves, and so everything a
later operation can return, is the same whatever `f1` is, and the new
connection has `rest` inbound.  So when `rest` starts with the frame `f2`, the
first `WaitSignal` after `Connect` returns what `f2` decodes to, and the first
`WriteOffer` whose write succeeds returns the bytes of `f2`. -/
theorem Connect_discards_first (w : World) (cli : SignalClient) (scheme addr : String)
    (login : GoString)
    (f1 : Frame) (rest : List Recv) (fs : List (Option Error)) (ds : List DialOutcome)
    (hd : w.dials = .accept (.frame f1 :: rest) fs :: ds) (hok : ∀ e fs1, fs ≠ some e :: fs1) :
    Connect w cli scheme addr login =
        .ret (⟨some w.conns.length, some w.ctxs.length, some w.ctxs.length⟩, none)
          ⟨w.conns ++ [⟨⟨scheme, addr, "/signal"⟩, false, [(jsonMarshalLogin ⟨"login", login⟩).1],
            rest, fs.tail⟩], w.ctxs ++ [false], ds⟩ ∧
      (∀ g1, Connect { w with dials := .accept (.frame g1 :: rest) fs :: ds } cli scheme addr
        login = Connect w cli scheme addr login) ∧
      (∀ f2 rest2, rest = .frame f2 :: rest2 →
        (∃ w2, WaitSignal
            ⟨w.conns ++ [⟨⟨scheme, addr, "/signal"⟩, false,
              [(jsonMarshalLogin ⟨"login", login⟩).1], rest, fs.tail⟩], w.ctxs ++ [false], ds⟩
            ⟨some w.conns.length, some w.ctxs.length, some w.ctxs.length⟩ =
              .ret ((jsonUnmarshalSignal f2 zeroSignal).1, none) w2 ∧
            w2.inbound w.conns.length = rest2) ∧
        ∀ peer offer, (∀ e fs2, fs.tail ≠ some e :: fs2) →
          ∃ w2, WriteOffer
            ⟨w.conns ++ [⟨⟨scheme, addr, "/signal"⟩, false,
              [(jsonMarshalLogin ⟨"login", login⟩).1], rest, fs.tail⟩], w.ctxs ++ [false], ds⟩
            ⟨some w.conns.length, some w.ctxs.length, some w.ctxs.length⟩ peer offer =
              .ret (f2, none) w2 ∧
            w2.inbound w.conns.length = rest2) := by
  have hconnect : ∀ (w0 : World) (g1 : Frame), w0.conns = w.conns → w0.ctxs = w.ctxs →
      w0.dials = .accept (.frame g1 :: rest) fs :: ds →
      Connect w0 cli scheme addr login =
        .ret (⟨some w.conns.length, some w.ctxs.length, some w.ctxs.length⟩, none)
          ⟨w.conns ++ [⟨⟨scheme, addr, "/signal"⟩, false, [(jsonMarshalLogin ⟨"login", login⟩).1],
            rest, fs.tail⟩], w.ctxs ++ [false], ds⟩ := by
    intro w0 g1 h1 h2 h3
    rcases fs with _ | ⟨_ | e1, fs1⟩
    · simp [Connect, withCancel, wsDial, h1, h2, h3, jsonMarshalLogin, wsWrite, World.cancelled,
        waitAnswer, wsRead]
    · simp [Connect, withCancel, wsDial, h1, h2, h3, jsonMarshalLogin, wsWrite, World.cancelled,
        waitAnswer, wsRead]
    · exact absurd rfl (hok e1 fs1)
  have hget : (w.conns ++ [(⟨⟨scheme, addr, "/signal"⟩, false,
      [(jsonMarshalLogin ⟨"login", login⟩).1], rest, fs.tail⟩ : Conn)])[w.conns.length]? =
      some ⟨⟨scheme, addr, "/signal"⟩, false, [(jsonMarshalLogin ⟨"login", login⟩).1], rest,
        fs.tail⟩ := by simp
  have hcan : (⟨w.conns ++ [⟨⟨scheme, addr, "/signal"⟩, false,
      [(jsonMarshalLogin ⟨"login", login⟩).1], rest, fs.tail⟩], w.ctxs ++ [false], ds⟩ :
      World).cancelled w.ctxs.length = false := by
    simp [World.cancelled, List.getD]
  refine ⟨hconnect w f1 rfl rfl hd, fun g1 => ?_, fun f2 rest2 hr => ⟨?_, fun peer offer hok2 => ?_⟩⟩
  · rw [hconnect w f1 rfl rfl hd,
      hconnect { w with dials := .accept (.frame g1 :: rest) fs :: ds } g1 rfl rfl rfl]
  · exact ⟨_, WaitSignal_frame
      ⟨w.conns ++ [⟨⟨scheme, addr, "/signal"⟩, false, [(jsonMarshalLogin ⟨"login", login⟩).1],
        rest, fs.tail⟩], w.ctxs ++ [false], ds⟩
      ⟨some w.conns.length, some w.ctxs.length, some w.ctxs.length⟩ w.conns.length w.ctxs.length
      ⟨⟨scheme, addr, "/signal"⟩, false, [(jsonMarshalLogin ⟨"login", login⟩).1], rest, fs.tail⟩
      f2 rest2 ⟨rfl, hget, rfl, hcan⟩ hr, setConn_inbound _ _ _ _ hget⟩
  · exact WriteOffer_frame
      ⟨w.conns ++ [⟨⟨scheme, addr, "/signal"⟩, false, [(jsonMarshalLogin ⟨"login", login⟩).1],
        rest, fs.tail⟩], w.ctxs ++ [false], ds⟩
      ⟨some w.conns.length, some w.ctxs.length, some w.ctxs.length⟩ w.conns.length w.ctxs.length
      ⟨⟨scheme, addr, "/signal"⟩, false, [(jsonMarshalLogin ⟨"login", login⟩).1], rest, fs.tail⟩
      peer offer f2 rest2 ⟨rfl, hget, rfl, hcan⟩ hok2 hr

/-- Witness of `Connect_discards_first`: the relay first delivers an offer,
which `Connect` drops, and then an answer, which `WaitSignal` returns. -/
theorem Connect_discards_first_witness :
    Connect ⟨[], [], [.accept [.frame "\x7b\"signal\":\"offer\"\x7d".data,
        .frame "\x7b\"signal\":\"answer\"\x7d".data] []]⟩ New "ws" "relay:8080" "alice" =
      .ret (sessionClient, none)
        ⟨[⟨⟨"ws", "relay:8080", "/signal"⟩, false, [(jsonMarshalLogin ⟨"login", "alice"⟩).1],
          [.frame "\x7b\"signal\":\"answer\"\x7d".data], []⟩], [false], []⟩ :=
  (Connect_discards_first ⟨[], [], [.accept [.frame "\x7b\"signal\":\"offer\"\x7d".data,
      .frame "\x7b\"signal\":\"answer\"\x7d".data] []]⟩ New "ws" "relay:8080" "alice"
    "\x7b\"signal\":\"offer\"\x7d".data [.frame "\x7b\"signal\":\"answer\"\x7d".data] [] []
    rfl (by intro e fs1 h; cases h)).1

end Teowebrtc
